import Mathlib

/-!
# Verification of the wikitext-to-plaintext extraction pipeline

Shallow embedding of the Rust sources (`parser.rs`, `clean_parsed.rs`,
`main.rs`, `parse_single.rs`) of the `wikitext_parser_rust` repository.
Strings are modelled as `List Char`; Rust byte ranges are modelled as
character indices.  The external markup parser (`parse_wiki_text`) is
modelled as an arbitrary function from raw text to a node tree, as the
repository treats it as an always-succeeding black box.

Regex `replace_all` calls are modelled by explicit leftmost,
non-overlapping scanners whose per-position matchers mirror the concrete
patterns of the source (all the source patterns are deterministic once a
starting position is fixed, because every repetition class excludes its
follow-set delimiter).
-/

namespace Wikitext

abbrev Str := List Char

/-! ## Basic characters and string utilities -/

def nl : Char := Char.ofNat 10
def crChar : Char := Char.ofNat 13
def spaceChar : Char := Char.ofNat 32
def quoteChar : Char := Char.ofNat 39
def dotChar : Char := Char.ofNat 46
def openBrace : Char := Char.ofNat 123
def closeBrace : Char := Char.ofNat 125
def pipeChar : Char := Char.ofNat 124
def openBracket : Char := Char.ofNat 91
def closeBracket : Char := Char.ofNat 93

def str (s : String) : Str := s.toList

def nl2 : Str := [nl, nl]

/-- The Unicode `White_Space` predicate, as used by Rust `char::is_whitespace`
and by the regex class `\s`. -/
def isWS (c : Char) : Bool :=
  let n := c.toNat
  n = 9 || n = 10 || n = 11 || n = 12 || n = 13 || n = 32 ||
  n = 133 || n = 160 || n = 5760 || (8192 ≤ n && n ≤ 8202) ||
  n = 8232 || n = 8233 || n = 8239 || n = 8287 || n = 12288

/-- Rust `str::trim_start`. -/
def trimStart (s : Str) : Str := s.dropWhile isWS

/-- Rust `str::trim_end`. -/
def trimEnd (s : Str) : Str := (s.reverse.dropWhile isWS).reverse

/-- Rust `str::trim`. -/
def trim (s : Str) : Str := trimEnd (trimStart s)

/-- `startsWith s p` holds when `p` is a prefix of `s` (Rust `str::starts_with`). -/
def startsWith : Str → Str → Bool
  | _, [] => true
  | [], _ :: _ => false
  | c :: cs, p :: ps => c == p && startsWith cs ps

/-- Substring containment (Rust `str::contains`). -/
def containsSub : Str → Str → Bool
  | [], pat => pat.isEmpty
  | c :: cs, pat => startsWith (c :: cs) pat || containsSub cs pat

/-- Count of leftmost, non-overlapping occurrences of `pat`
(Rust `str::matches(pat).count()`, for non-empty `pat`). -/
def countMatches (pat : Str) : Str → Nat
  | [] => 0
  | c :: cs =>
    if pat ≠ [] ∧ startsWith (c :: cs) pat = true then
      1 + countMatches pat (cs.drop (pat.length - 1))
    else countMatches pat cs
termination_by s => s.length
decreasing_by
  · simp only [List.length_cons]
    have := List.length_drop (pat.length - 1) cs
    omega
  · simp

/-- Rust `str::trim_start_matches`: repeatedly remove the prefix `pat`. -/
def trimStartMatches (pat : Str) : Str → Str
  | [] => []
  | c :: cs =>
    if startsWith (c :: cs) pat = true ∧ pat ≠ [] then
      trimStartMatches pat (cs.drop (pat.length - 1))
    else c :: cs
termination_by s => s.length
decreasing_by
  simp only [List.length_cons]
  have := List.length_drop (pat.length - 1) cs
  omega

/-- Rust `str::trim_end_matches`: repeatedly remove the suffix `pat`. -/
def trimEndMatches (pat : Str) (s : Str) : Str :=
  (trimStartMatches pat.reverse s.reverse).reverse

/-- Generic leftmost, non-overlapping `Regex::replace_all` scanner.  A matcher
inspects the given suffix; on success it returns `(k, rep)`, meaning the match
consumed `k + 1` characters and is replaced by `rep` (our matchers always
consume at least one character, which the `k + 1` encoding makes intrinsic). -/
def scanRepl (m : Str → Option (Nat × Str)) : Str → Str
  | [] => []
  | c :: cs =>
    match m (c :: cs) with
    | some (k, rep) => rep ++ scanRepl m (cs.drop k)
    | none => c :: scanRepl m cs
termination_by s => s.length
decreasing_by
  · simp only [List.length_cons]
    have := List.length_drop k cs
    omega
  · simp

/-- Variant of `scanRepl` for `(?m)^`-anchored patterns: the matcher is only
tried at the start of the text and directly after a newline.  None of the
anchored matchers of the source consume a trailing newline, so the position
after a replacement is never a line start. -/
def scanReplAnchored (m : Str → Option (Nat × Str)) : Bool → Str → Str
  | _, [] => []
  | atStart, c :: cs =>
    if atStart then
      match m (c :: cs) with
      | some (k, rep) => rep ++ scanReplAnchored m false (cs.drop k)
      | none => c :: scanReplAnchored m (c == nl) cs
    else c :: scanReplAnchored m (c == nl) cs
termination_by _ s => s.length
decreasing_by
  · simp only [List.length_cons]
    have := List.length_drop k cs
    omega
  · simp
  · simp

/-- Split on a separator pair of newlines (Rust `str::split("\n\n")`),
leftmost and non-overlapping. -/
def splitNl2 : Str → List Str
  | [] => [[]]
  | c :: cs =>
    if c == nl && startsWith cs [nl] then [] :: splitNl2 (cs.drop 1)
    else
      match splitNl2 cs with
      | [] => [[c]]
      | p :: ps => (c :: p) :: ps
termination_by s => s.length
decreasing_by
  · simp only [List.length_cons]
    have := List.length_drop 1 cs
    omega
  · simp

/-- Split on single newlines; auxiliary for `linesOf`. -/
def splitNlChar : Str → List Str
  | [] => [[]]
  | c :: cs =>
    if c == nl then [] :: splitNlChar cs
    else
      match splitNlChar cs with
      | [] => [[c]]
      | p :: ps => (c :: p) :: ps

/-- Strip one trailing carriage return (part of Rust `str::lines`). -/
def stripCR (s : Str) : Str :=
  if s.getLast? = some crChar then s.dropLast else s

/-- Rust `str::lines`: split on newline, drop a final empty piece produced by a
trailing newline, strip one trailing carriage return per line. -/
def linesOf (s : Str) : List Str :=
  if s.isEmpty then []
  else
    let s1 := if s.getLast? = some nl then s.dropLast else s
    (splitNlChar s1).map stripCR

/-- Rust `Vec::join(sep)`. -/
def joinWith (sep : Str) : List Str → Str
  | [] => []
  | [p] => p
  | p :: q :: rest => p ++ sep ++ joinWith sep (q :: rest)

/-- The `\n{3,}` → `"\n\n"` normalization (`Regex::replace_all`): every maximal
run of three or more newlines is replaced by exactly two. -/
def collapseNewlines : Str → Str
  | [] => []
  | c :: cs =>
    if c == nl then
      let run := cs.takeWhile (· == nl)
      let rest := cs.dropWhile (· == nl)
      (if 2 ≤ run.length then nl2 else c :: run) ++ collapseNewlines rest
    else c :: collapseNewlines cs
termination_by s => s.length
decreasing_by
  · simp only [List.length_cons]
    have := (cs.dropWhile_suffix (· == nl)).length_le
    omega
  · simp

/-! ## The node tree of the external parser -/

/-- The node kinds of the `parse_wiki_text` crate that
`extract_text_from_nodes` dispatches on.  Kinds handled identically by the
catch-all arm of the source carry no payload here, as the source never
inspects their payload. -/
inductive Node where
  | text (value : Str)
  | bold (startIdx stopIdx : Nat)
  | italic (startIdx stopIdx : Nat)
  | boldItalic (startIdx stopIdx : Nat)
  | link (textNodes : List Node)
  | externalLink (nodes : List Node)
  | heading (nodes : List Node)
  | paragraphBreak
  | unorderedList (items : List (List Node))
  | orderedList (items : List (List Node))
  | definitionList (items : List (List Node))
  | preformatted (nodes : List Node)
  | tag (name : Str) (nodes : List Node)
  | template
  | table
  | image
  | category
  | comment
  | magicWord
  | redirect
  | parameter
  | characterEntity
  | startTag
  | endTag
  | horizontalDivider
deriving Repr

/-! ## The extraction engine (`extract_text_from_nodes`) -/

/-- The five-, three- and two-quote emphasis delimiters. -/
def q5 : Str := List.replicate 5 quoteChar
def q3 : Str := List.replicate 3 quoteChar
def q2 : Str := List.replicate 2 quoteChar

/-- Emphasis-delimiter stripping applied to the raw byte range of a
Bold/Italic/BoldItalic node: both ends, in strictly descending delimiter
length order (5, then 3, then 2). -/
def stripEmphasis (s : Str) : Str :=
  trimEndMatches q2 (trimStartMatches q2
    (trimEndMatches q3 (trimStartMatches q3
      (trimEndMatches q5 (trimStartMatches q5 s)))))

/-- The raw range `&wikitext[start..end]` of an emphasis node. -/
def sliceRange (w : Str) (startIdx stopIdx : Nat) : Str :=
  (w.drop startIdx).take (stopIdx - startIdx)

mutual

/-- Fold of the extraction dispatch over a node list.  The state is the pair
`(text, current_paragraph)` of the source. -/
def runNodes (w : Str) (skip : Bool) : List Node → Str × Str → Str × Str
  | [], st => st
  | n :: ns, st => runNodes w skip ns (runNode w skip n st)
termination_by ns _ => (sizeOf ns, 0)

/-- One step of the extraction dispatch: the `match node` of
`extract_text_from_nodes`, acting on the state `(text, current_paragraph)`. -/
def runNode (w : Str) (skip : Bool) : Node → Str × Str → Str × Str
  | .text v, (t, cur) => (t, cur ++ v)
  | .bold s e, (t, cur) => (t, cur ++ stripEmphasis (sliceRange w s e))
  | .italic s e, (t, cur) => (t, cur ++ stripEmphasis (sliceRange w s e))
  | .boldItalic s e, (t, cur) => (t, cur ++ stripEmphasis (sliceRange w s e))
  | .link ts, (t, cur) =>
      let d := extract_text_from_nodes ts w skip
      if containsSub d (str "Файл:") || containsSub d (str "File:") then (t, cur)
      else (t, cur ++ d)
  | .externalLink ns, (t, cur) =>
      let d := extract_text_from_nodes ns w skip
      if startsWith d (str "http://") || startsWith d (str "https://") then (t, cur)
      else (t, cur ++ d)
  | .heading ns, (t, cur) =>
      let h := extract_text_from_nodes ns w skip
      if (trim h).isEmpty then (t, cur)
      else
        let t1 := if cur.isEmpty then t else t ++ cur ++ nl2
        (t1 ++ trim h ++ nl2, [])
  | .paragraphBreak, (t, cur) =>
      if (trim cur).isEmpty then (t, cur)
      else (t ++ trim cur ++ nl2, [])
  | .unorderedList items, (t, cur) =>
      if skip then (t, cur) else (t, runItems w skip items cur)
  | .orderedList items, (t, cur) =>
      if skip then (t, cur) else (t, runItems w skip items cur)
  | .definitionList items, (t, cur) =>
      if skip then (t, cur) else (t, runItems w skip items cur)
  | .preformatted ns, (t, cur) => (t, cur ++ extract_text_from_nodes ns w skip)
  | .tag name ns, (t, cur) =>
      if name == str "ref" then (t, cur)
      else (t, cur ++ extract_text_from_nodes ns w skip)
  | .template, st => st
  | .table, st => st
  | .image, st => st
  | .category, st => st
  | .comment, st => st
  | .magicWord, st => st
  | .redirect, st => st
  | .parameter, st => st
  | .characterEntity, st => st
  | .startTag, st => st
  | .endTag, st => st
  | .horizontalDivider, st => st
termination_by n _ => (sizeOf n, 0)

/-- Loop over list items: every item whose trimmed text is non-empty is
appended, trimmed, followed by a single space. -/
def runItems (w : Str) (skip : Bool) : List (List Node) → Str → Str
  | [], cur => cur
  | it :: its, cur =>
      let itemText := extract_text_from_nodes it w skip
      let cur1 := if (trim itemText).isEmpty then cur
                  else cur ++ trim itemText ++ [spaceChar]
      runItems w skip its cur1
termination_by items _ => (sizeOf items, 0)

/-- `extract_text_from_nodes`: run the dispatch over the nodes starting from
empty accumulators, then append the remaining trimmed pending paragraph if it
is non-empty. -/
def extract_text_from_nodes (nodes : List Node) (w : Str) (skip : Bool) : Str :=
  let st := runNodes w skip nodes ([], [])
  if (trim st.2).isEmpty then st.1 else st.1 ++ trim st.2
termination_by (sizeOf nodes, 1)

end

/-! ## Template expansion (`expand_common_templates`) -/

/-- Digit-string to number (`str::parse`). -/
def digitsToNat (d : Str) : Nat :=
  d.foldl (fun acc c => 10 * acc + (c.toNat - 48)) 0

/-- `u32` parse with `unwrap_or(0)`: overflow degrades to 0. -/
def parseU32 (d : Str) : Nat :=
  if digitsToNat d < 4294967296 then digitsToNat d else 0

/-- The fixed 12-entry genitive month-name lookup. -/
def monthName : Nat → Str
  | 1 => str "января"
  | 2 => str "февраля"
  | 3 => str "марта"
  | 4 => str "апреля"
  | 5 => str "мая"
  | 6 => str "июня"
  | 7 => str "июля"
  | 8 => str "августа"
  | 9 => str "сентября"
  | 10 => str "октября"
  | 11 => str "ноября"
  | 12 => str "декабря"
  | _ => []

/-- The replacement closure of the date-template rule: `"day monthName year"`
when the month name is found, else `"day.month_num.year"` with the numeric
month value re-printed. -/
def ss3Repl (d m y : Str) : Str :=
  let mv := parseU32 m
  let name := monthName mv
  if name.isEmpty then d ++ [dotChar] ++ Nat.toDigits 10 mv ++ [dotChar] ++ y
  else d ++ [spaceChar] ++ name ++ [spaceChar] ++ y

/-- The literal opening of the date template: two open braces, `СС3`, pipe. -/
def litSS3 : Str := openBrace :: openBrace :: str "СС3" ++ [pipeChar]

/-- Matcher for `\{\{СС3\|(\d+)\.(\d+)\.(\d+)\}\}`. -/
def matchSS3 (s : Str) : Option (Nat × Str) :=
  if startsWith s litSS3 then
    let r1 := s.drop litSS3.length
    let d := r1.takeWhile Char.isDigit
    if d.isEmpty then none else
    let r2 := r1.drop d.length
    if startsWith r2 [dotChar] then
      let r3 := r2.drop 1
      let m := r3.takeWhile Char.isDigit
      if m.isEmpty then none else
      let r4 := r3.drop m.length
      if startsWith r4 [dotChar] then
        let r5 := r4.drop 1
        let y := r5.takeWhile Char.isDigit
        if y.isEmpty then none else
        let r6 := r5.drop y.length
        if startsWith r6 [closeBrace, closeBrace] then
          some (litSS3.length + d.length + 1 + m.length + 1 + y.length + 2 - 1,
                ss3Repl d m y)
        else none
      else none
    else none
  else none

/-- The literal opening of the bare-year template. -/
def litGod : Str := openBrace :: openBrace :: str "год" ++ [pipeChar]

/-- Matcher for `\{\{год\|(\d{3,4})\}\}` → `$1` (greedy: four digits tried
before three). -/
def matchGod (s : Str) : Option (Nat × Str) :=
  if startsWith s litGod then
    let r := s.drop litGod.length
    let d4 := r.take 4
    if d4.length = 4 ∧ d4.all Char.isDigit ∧
        startsWith (r.drop 4) [closeBrace, closeBrace] = true then
      some (litGod.length + 4 + 2 - 1, d4)
    else
      let d3 := r.take 3
      if d3.length = 3 ∧ d3.all Char.isDigit ∧
          startsWith (r.drop 3) [closeBrace, closeBrace] = true then
        some (litGod.length + 3 + 2 - 1, d3)
      else none
  else none

/-- The literal opening of the bare-number template. -/
def litNum : Str := openBrace :: openBrace :: str "num" ++ [pipeChar]

/-- Matcher for `\{\{num\|(\d+)\}\}` → `$1`. -/
def matchNum (s : Str) : Option (Nat × Str) :=
  if startsWith s litNum then
    let r := s.drop litNum.length
    let d := r.takeWhile Char.isDigit
    if d.isEmpty then none else
    if startsWith (r.drop d.length) [closeBrace, closeBrace] then
      some (litNum.length + d.length + 2 - 1, d)
    else none
  else none

/-- A character allowed inside the name/value of the catch-all simple
template: not a pipe and not a brace. -/
def plainTplChar (c : Char) : Bool :=
  !(c == pipeChar || c == openBrace || c == closeBrace)

/-- Matcher for the catch-all `\{\{[^|{}]+\|([^|{}]+)\}\}` → `$1`. -/
def matchCatchAll (s : Str) : Option (Nat × Str) :=
  if startsWith s [openBrace, openBrace] then
    let r := s.drop 2
    let name := r.takeWhile plainTplChar
    if name.isEmpty then none else
    let r2 := r.drop name.length
    if startsWith r2 [pipeChar] then
      let v := (r2.drop 1).takeWhile plainTplChar
      if v.isEmpty then none else
      if startsWith ((r2.drop 1).drop v.length) [closeBrace, closeBrace] then
        some (2 + name.length + 1 + v.length + 2 - 1, v)
      else none
    else none
  else none

/-- `expand_common_templates`: the four substitution passes, in source
order (date, bare year, bare number, catch-all). -/
def expand_common_templates (s : Str) : Str :=
  scanRepl matchCatchAll (scanRepl matchNum (scanRepl matchGod (scanRepl matchSS3 s)))

/-! ## Image-fragment removal (`remove_image_fragments`) -/

/-- One alternative of the file-link pattern: a literal opening, at most 500
non-bracket characters, two closing brackets. -/
def matchFileLit (lit s : Str) : Option (Nat × Str) :=
  if startsWith s lit then
    let r := s.drop lit.length
    let t := r.takeWhile (fun c => !(c == closeBracket))
    if t.length ≤ 500 ∧
        startsWith (r.drop t.length) [closeBracket, closeBracket] = true then
      some (lit.length + t.length + 2 - 1, [])
    else none
  else none

/-- Matcher for `\[\[(?:Файл|File):[^\]]{0,500}\]\]` → `""` (the alternation
is tried left to right). -/
def matchFileLink (s : Str) : Option (Nat × Str) :=
  match matchFileLit (str "[[Файл:") s with
  | some x => some x
  | none => matchFileLit (str "[[File:") s

/-- The position keywords of the image-parameter line pattern. -/
def posKeywords : List Str :=
  [str "мини", str "thumb", str "миниатюра", str "left", str "right",
   str "center", str "слева", str "справа", str "центр"]

/-- Whether a (trimmed) line matches
`^\d+px\|(?:мини|thumb|миниатюра|left|right|center|слева|справа|центр)\|.{0,200}$`. -/
def imageParamsLine (line : Str) : Bool :=
  let t := trim line
  let d := t.takeWhile Char.isDigit
  !d.isEmpty && startsWith (t.drop d.length) (str "px|") &&
    (let r := t.drop (d.length + 3)
     posKeywords.any (fun kw =>
       startsWith r (kw ++ [pipeChar]) && r.length ≤ kw.length + 1 + 200))

/-- The keywords of the optional group of fragment pattern one. -/
def fragAKeywords : List Str := [str "слева", str "справа", str "центр"]

/-- Matcher (at a line start) for `^\s*\d+px\|мини\|(?:слева|справа|центр)?.{0,200}$`
→ `""`.  The matched span runs from the start of the leading whitespace
(which `\s` lets span newlines) to the end of the line. -/
def matchFragA (s : Str) : Option (Nat × Str) :=
  let ws := s.takeWhile isWS
  let r := s.drop ws.length
  let d := r.takeWhile Char.isDigit
  if d.isEmpty then none else
  let lit := str "px|мини|"
  if startsWith (r.drop d.length) lit then
    let t := ((r.drop d.length).drop lit.length).takeWhile (fun c => !(c == nl))
    let feasible := t.length ≤ 200 ||
      fragAKeywords.any (fun kw => startsWith t kw && t.length ≤ kw.length + 200)
    if feasible then
      some (ws.length + d.length + lit.length + t.length - 1, [])
    else none
  else none

/-- Matcher (at a line start) for `^\s*альт=.{0,100}\|мини\|.{0,200}$` → `""`. -/
def matchFragB (s : Str) : Option (Nat × Str) :=
  let ws := s.takeWhile isWS
  let r := s.drop ws.length
  let lit := str "альт="
  if startsWith r lit then
    let t := (r.drop lit.length).takeWhile (fun c => !(c == nl))
    let mid := str "|мини|"
    let feasible := (List.range (min 100 t.length + 1)).any (fun i =>
      startsWith (t.drop i) mid && t.length ≤ i + mid.length + 200)
    if feasible then
      some (ws.length + lit.length + t.length - 1, [])
    else none
  else none

/-- Matcher (at a line start) for `^\s*\d+px\|мини$` → `""`. -/
def matchFragC (s : Str) : Option (Nat × Str) :=
  let ws := s.takeWhile isWS
  let r := s.drop ws.length
  let d := r.takeWhile Char.isDigit
  if d.isEmpty then none else
  let lit := str "px|мини"
  if startsWith (r.drop d.length) lit then
    let rest := (r.drop d.length).drop lit.length
    if rest.isEmpty || startsWith rest [nl] then
      some (ws.length + d.length + lit.length - 1, [])
    else none
  else none

/-- The stages of `remove_image_fragments` shared by `parser.rs` and
`clean_parsed.rs`: file-link removal, image-parameter line filtering, and the
three standalone fragment patterns. -/
def removeImageFragmentsCore (s : Str) : Str :=
  let r1 := scanRepl matchFileLink s
  let r2 := joinWith [nl] ((linesOf r1).filter (fun line => !imageParamsLine line))
  let r3 := scanReplAnchored matchFragA true r2
  let r4 := scanReplAnchored matchFragB true r3
  scanReplAnchored matchFragC true r4

/-- `remove_image_fragments` of `parser.rs` (ends with the newline collapse). -/
def remove_image_fragments (s : Str) : Str :=
  collapseNewlines (removeImageFragmentsCore s)

/-! ## Section pruning (`remove_empty_sections`) -/

/-- The fixed closed set of structural-heading strings. -/
def empty_section_names : List Str :=
  [str "Население", str "Примечания", str "Литература", str "Ссылки",
   str "Категория", str "См. также", str "Источники"]

/-- Whether a paragraph is heading-only: equal to a structural heading name,
or starting with the category-name prefix (the second disjunct of the source
closure ignores the iterated name). -/
def isEmptySection (p : Str) : Bool :=
  empty_section_names.any (fun name => p == name || startsWith p (str "Категория:"))

/-- `remove_empty_sections`: single forward pass with one paragraph of
lookahead into the original sequence. -/
def remove_empty_sections : List Str → List Str
  | [] => []
  | p :: rest =>
    if isEmptySection p then
      match rest.head? with
      | some q =>
        if isEmptySection q then remove_empty_sections rest
        else p :: remove_empty_sections rest
      | none => remove_empty_sections rest
    else p :: remove_empty_sections rest

/-! ## `parse_wikitext` -/

/-- The fixed sentinel message of the complexity guard. -/
def sentinelSkip : Str :=
  str "[Article skipped: contains complex nested structures that cause parsing issues]"

def tableRowMarker : Str := str "|-"
def templateOpenMarker : Str := [openBrace, openBrace]
def fileMarkerRu : Str := str "[[Файл:"
def fileMarkerEn : Str := str "[[File:"

/-- The complexity-guard condition of `parse_wikitext`. -/
def complexityGuard (w : Str) : Bool :=
  let tableRowCount := countMatches tableRowMarker w
  let templateCount := countMatches templateOpenMarker w
  let fileCount := countMatches fileMarkerRu w + countMatches fileMarkerEn w
  decide (tableRowCount > 50) && (decide (templateCount > 200) || decide (fileCount > 50))

/-- The pipeline of `parse_wikitext` downstream of the external parser:
extraction, template expansion, image-fragment removal, paragraph split,
section pruning, join. -/
def postParse (nodes : List Node) (w : Str) (skip : Bool) : Str :=
  let text := extract_text_from_nodes nodes w skip
  let expanded := expand_common_templates text
  let cleaned := remove_image_fragments expanded
  let paragraphs := ((splitNl2 cleaned).map trim).filter (fun p => !p.isEmpty)
  joinWith nl2 (remove_empty_sections paragraphs)

/-- `parse_wikitext`, parameterized by the external always-succeeding parser
(`Configuration::default().parse`). -/
def parse_wikitext (parseFn : Str → List Node) (w : Str) (skip : Bool) : Str :=
  if complexityGuard w then sentinelSkip
  else postParse (parseFn w) w skip

/-! ## `clean_text` of `clean_parsed.rs` -/

/-- Matcher for the innermost-template pattern `\{\{[^{}]*\}\}` → `""`. -/
def matchSimpleTpl (s : Str) : Option (Nat × Str) :=
  if startsWith s [openBrace, openBrace] then
    let r := s.drop 2
    let t := r.takeWhile (fun c => !(c == openBrace || c == closeBrace))
    if startsWith (r.drop t.length) [closeBrace, closeBrace] then
      some (2 + t.length + 2 - 1, [])
    else none
  else none

/-- Matcher for the bounded complex-template pattern `\{\{[^}]{0,500}\}\}` → `""`. -/
def matchComplexTpl (s : Str) : Option (Nat × Str) :=
  if startsWith s [openBrace, openBrace] then
    let r := s.drop 2
    let t := r.takeWhile (fun c => !(c == closeBrace))
    if t.length ≤ 500 ∧
        startsWith (r.drop t.length) [closeBrace, closeBrace] = true then
      some (2 + t.length + 2 - 1, [])
    else none
  else none

/-- Step 1 of `clean_text`: iterate innermost-template stripping, stopping once
a round produces no length change (the bound is 10 rounds). -/
def stripTplLoop : Nat → Str → Str
  | 0, s => s
  | k + 1, s =>
    let s1 := scanRepl matchSimpleTpl s
    if s1.length = s.length then s1 else stripTplLoop k s1

/-- Whether a character is a brace. -/
def isBrace (c : Char) : Bool := c == openBrace || c == closeBrace

/-- Steps 1–3 of `clean_text`: the bounded iterative strip, the bounded
complex-template pass, and the lone-brace backstop. -/
def cleanBraceStages (s : Str) : Str :=
  let r1 := stripTplLoop 10 s
  let r2 := scanRepl matchComplexTpl r1
  r2.filter (fun c => !isBrace c)

/-- `clean_text` of `clean_parsed.rs`: brace stages, then image-fragment
removal (without collapse), then the final newline collapse. -/
def clean_text (s : Str) : Str :=
  collapseNewlines (removeImageFragmentsCore (cleanBraceStages s))

/-- `clean_text_array`: nullable map of `clean_text` over a column
(null stays null). -/
def clean_text_array (a : List (Option Str)) : List (Option Str) :=
  a.map (fun o => o.map clean_text)

/-! ## The batch boundary (`main.rs::process_batch`) -/

/-- An input batch of `main.rs`: nullable text columns, pass-through columns
held abstract (the source only `Arc::clone`s them). -/
structure InputBatch (α β γ : Type) where
  page_id : List (Option Str)
  page_title : List (Option Str)
  official_text : List (Option Str)
  official_timestamp : α
  clone_page_title : β
  clone_text : List (Option Str)
  clone_timestamp : γ

/-- The output batch of `process_batch`: the two raw-text columns replaced by
nullable parsed-paragraph columns, everything else carried over. -/
structure OutputBatch (α β γ : Type) where
  page_id : List (Option Str)
  page_title : List (Option Str)
  official_text_paragraphs : List (Option Str)
  official_timestamp : α
  clone_page_title : β
  clone_text_paragraphs : List (Option Str)
  clone_timestamp : γ

/-- `process_batch` of `main.rs`, parameterized by the external parser. -/
def process_batch (parseFn : Str → List Node) (skip : Bool)
    (b : InputBatch α β γ) : OutputBatch α β γ where
  page_id := b.page_id
  page_title := b.page_title
  official_text_paragraphs :=
    b.official_text.map (Option.map (fun s => parse_wikitext parseFn s skip))
  official_timestamp := b.official_timestamp
  clone_page_title := b.clone_page_title
  clone_text_paragraphs :=
    b.clone_text.map (Option.map (fun s => parse_wikitext parseFn s skip))
  clone_timestamp := b.clone_timestamp

/-! ## Helper lemmas on the string utilities -/

theorem startsWith_nil (s : Str) : startsWith s [] = true := by cases s <;> rfl

theorem startsWith_iff {s p : Str} : startsWith s p = true ↔ p <+: s := by
  induction p generalizing s with
  | nil => simp [startsWith_nil]
  | cons x ps ih =>
    cases s with
    | nil => simp [startsWith]
    | cons c cs =>
      simp only [startsWith, Bool.and_eq_true, beq_iff_eq, ih, List.cons_prefix_cons]
      exact and_congr_left (fun _ => eq_comm)

theorem containsSub_iff {s pat : Str} : containsSub s pat = true ↔ pat <:+: s := by
  induction s with
  | nil => simp [containsSub, List.isEmpty_iff]
  | cons c cs ih =>
    simp only [containsSub, Bool.or_eq_true, startsWith_iff, ih, List.infix_cons_iff]

theorem startsWith_append_self (p s : Str) : startsWith (p ++ s) p = true :=
  startsWith_iff.mpr (List.prefix_append p s)

theorem startsWith_false_of_head {s p : Str} {c x : Char}
    (hs : s.head? = some c) (hp : p.head? = some x) (hne : c ≠ x) :
    startsWith s p = false := by
  cases s with
  | nil => simp at hs
  | cons a as =>
    cases p with
    | nil => simp at hp
    | cons b bs =>
      simp only [List.head?_cons, Option.some.injEq] at hs hp
      subst hs; subst hp
      simp [startsWith, hne]

theorem trimStartMatches_nil (pat : Str) : trimStartMatches pat [] = [] := by
  simp [trimStartMatches]

theorem trimStartMatches_of_not {pat s : Str}
    (h : ¬(startsWith s pat = true ∧ pat ≠ [])) : trimStartMatches pat s = s := by
  cases s with
  | nil => simp [trimStartMatches]
  | cons c cs => rw [trimStartMatches, if_neg h]

theorem trimStartMatches_strip (x : Char) (ps s : Str) :
    trimStartMatches (x :: ps) ((x :: ps) ++ s) = trimStartMatches (x :: ps) s := by
  have hcons : (x :: ps) ++ s = x :: (ps ++ s) := rfl
  rw [hcons, trimStartMatches,
    if_pos ⟨by rw [← hcons]; exact startsWith_append_self _ _, by simp⟩]
  congr 1
  simp [List.drop_left]

/-- Quote-run prefix tests reduce over a quote-run prefix of the subject. -/
theorem startsWith_replicate_prepend (j k : Nat) (hjk : j ≤ k) (rest : Str) :
    startsWith (List.replicate j quoteChar ++ rest) (List.replicate k quoteChar)
      = startsWith rest (List.replicate (k - j) quoteChar) := by
  induction j generalizing k with
  | zero => simp
  | succ j ih =>
    cases k with
    | zero => omega
    | succ k =>
      simp only [List.replicate_succ, List.cons_append, startsWith, beq_self_eq_true,
        Bool.true_and, Nat.succ_sub_succ]
      exact ih k (by omega)

theorem startsWith_core_replicate_false {core : Str} (hne : core ≠ [])
    (hh : core.head? ≠ some quoteChar) (rest : Str) {m : Nat} (hm : 1 ≤ m) :
    startsWith (core ++ rest) (List.replicate m quoteChar) = false := by
  cases core with
  | nil => exact absurd rfl hne
  | cons c cs =>
    cases m with
    | zero => omega
    | succ m =>
      simp only [List.head?_cons, Option.some.injEq, ne_eq] at hh
      simp [List.replicate_succ, startsWith, hh]

theorem trimStartMatches_q_strip (n : Nat) {core : Str} (rest : Str) (hne : core ≠ [])
    (hh : core.head? ≠ some quoteChar) :
    trimStartMatches (List.replicate (n + 1) quoteChar)
      (List.replicate (n + 1) quoteChar ++ (core ++ rest)) = core ++ rest := by
  rw [List.replicate_succ, trimStartMatches_strip, ← List.replicate_succ,
    trimStartMatches_of_not]
  intro hcontra
  rw [startsWith_core_replicate_false hne hh rest (by omega)] at hcontra
  exact absurd hcontra.1 (by simp)

theorem trimStartMatches_q_skip {j k : Nat} (hjk : j < k) {core : Str} (rest : Str)
    (hne : core ≠ []) (hh : core.head? ≠ some quoteChar) :
    trimStartMatches (List.replicate k quoteChar)
      (List.replicate j quoteChar ++ (core ++ rest))
      = List.replicate j quoteChar ++ (core ++ rest) := by
  apply trimStartMatches_of_not
  intro hcontra
  rw [startsWith_replicate_prepend j k (by omega),
    startsWith_core_replicate_false hne hh rest (by omega)] at hcontra
  exact absurd hcontra.1 (by simp)

theorem trimEndMatches_q_strip (n : Nat) {core : Str} (hne : core ≠ [])
    (hl : core.getLast? ≠ some quoteChar) :
    trimEndMatches (List.replicate (n + 1) quoteChar)
      (core ++ List.replicate (n + 1) quoteChar) = core := by
  unfold trimEndMatches
  rw [List.reverse_append, List.reverse_replicate]
  have h1 : core.reverse ≠ [] := by simpa using hne
  have h2 : core.reverse.head? ≠ some quoteChar := by
    rw [List.head?_reverse]; exact hl
  have := @trimStartMatches_q_strip n core.reverse [] h1 h2
  rw [List.append_nil] at this
  rw [this, List.reverse_reverse]

theorem trimEndMatches_q_skip {j k : Nat} (hjk : j < k) {core : Str} (hne : core ≠ [])
    (hl : core.getLast? ≠ some quoteChar) :
    trimEndMatches (List.replicate k quoteChar)
      (List.replicate j quoteChar ++ core ++ List.replicate j quoteChar)
      = List.replicate j quoteChar ++ core ++ List.replicate j quoteChar := by
  have h1 : core.reverse ≠ [] := by simpa using hne
  have h2 : core.reverse.head? ≠ some quoteChar := by
    rw [List.head?_reverse]; exact hl
  have key := @trimStartMatches_q_skip j k hjk core.reverse
    (List.replicate j quoteChar) h1 h2
  have hrev : (List.replicate j quoteChar ++ core ++ List.replicate j quoteChar).reverse
      = List.replicate j quoteChar ++ (core.reverse ++ List.replicate j quoteChar) := by
    simp [List.reverse_append, List.reverse_replicate, List.append_assoc]
  unfold trimEndMatches
  rw [List.reverse_replicate, hrev, key, ← hrev, List.reverse_reverse]

theorem trimStartMatches_q_skip_bare {k : Nat} (hk : 1 ≤ k) {core : Str}
    (hne : core ≠ []) (hh : core.head? ≠ some quoteChar) :
    trimStartMatches (List.replicate k quoteChar) core = core := by
  have := @trimStartMatches_q_skip 0 k (by omega) core [] hne hh
  simpa using this

theorem trimEndMatches_q_skip_bare {k : Nat} (hk : 1 ≤ k) {core : Str}
    (hne : core ≠ []) (hl : core.getLast? ≠ some quoteChar) :
    trimEndMatches (List.replicate k quoteChar) core = core := by
  have := @trimEndMatches_q_skip 0 k (by omega) core hne hl
  simpa using this

/-- The general shape of emphasis stripping on a well-delimited range: a core
with no quote at either end, wrapped in matching 5-, 3- or 2-quote
delimiters, strips exactly to the core. -/
theorem stripEmphasis_wrapped {core : Str} (hne : core ≠ [])
    (hh : core.head? ≠ some quoteChar) (hl : core.getLast? ≠ some quoteChar) :
    stripEmphasis (q5 ++ core ++ q5) = core ∧
    stripEmphasis (q3 ++ core ++ q3) = core ∧
    stripEmphasis (q2 ++ core ++ q2) = core := by
  refine ⟨?_, ?_, ?_⟩
  · unfold stripEmphasis q5 q3 q2
    rw [List.append_assoc, trimStartMatches_q_strip 4 _ hne hh,
      trimEndMatches_q_strip 4 hne hl,
      trimStartMatches_q_skip_bare (by omega) hne hh,
      trimEndMatches_q_skip_bare (by omega) hne hl,
      trimStartMatches_q_skip_bare (by omega) hne hh,
      trimEndMatches_q_skip_bare (by omega) hne hl]
  · unfold stripEmphasis q5 q3 q2
    rw [List.append_assoc,
      trimStartMatches_q_skip (by omega) _ hne hh, ← List.append_assoc,
      trimEndMatches_q_skip (by omega) hne hl, List.append_assoc,
      trimStartMatches_q_strip 2 _ hne hh,
      trimEndMatches_q_strip 2 hne hl,
      trimStartMatches_q_skip_bare (by omega) hne hh,
      trimEndMatches_q_skip_bare (by omega) hne hl]
  · unfold stripEmphasis q5 q3 q2
    rw [List.append_assoc,
      trimStartMatches_q_skip (by omega) _ hne hh, ← List.append_assoc,
      trimEndMatches_q_skip (by omega) hne hl, List.append_assoc,
      trimStartMatches_q_skip (by omega) _ hne hh, ← List.append_assoc,
      trimEndMatches_q_skip (by omega) hne hl, List.append_assoc,
      trimStartMatches_q_strip 1 _ hne hh,
      trimEndMatches_q_strip 1 hne hl]

/-! ## Claim C4: emphasis stripping -/

/-- C4.  For every Bold, Italic, or BoldItalic node, extraction takes the
node's raw range verbatim and strips the emphasis delimiters from both ends in
strictly descending length order (5-character, then 3-character, then
2-character); a delimiter-wrapped core with no quote at either end strips
exactly to the core (no partial-delimiter corruption), and in particular
bold, italic and bold-italic wrapped words strip to the bare word. -/
theorem emphasis_range_strip :
    (∀ (w : Str) (skip : Bool) (s e : Nat) (t cur : Str),
      runNode w skip (.bold s e) (t, cur) = (t, cur ++ stripEmphasis (sliceRange w s e)) ∧
      runNode w skip (.italic s e) (t, cur) = (t, cur ++ stripEmphasis (sliceRange w s e)) ∧
      runNode w skip (.boldItalic s e) (t, cur) = (t, cur ++ stripEmphasis (sliceRange w s e))) ∧
    (∀ core : Str, core ≠ [] → core.head? ≠ some quoteChar → core.getLast? ≠ some quoteChar →
      stripEmphasis (q5 ++ core ++ q5) = core ∧
      stripEmphasis (q3 ++ core ++ q3) = core ∧
      stripEmphasis (q2 ++ core ++ q2) = core) ∧
    stripEmphasis (q3 ++ str "bold" ++ q3) = str "bold" ∧
    stripEmphasis (q2 ++ str "italic" ++ q2) = str "italic" ∧
    stripEmphasis (q5 ++ str "both" ++ q5) = str "both" := by
  refine ⟨fun w skip s e t cur => ⟨?_, ?_, ?_⟩, fun core hne hh hl => stripEmphasis_wrapped hne hh hl, ?_, ?_, ?_⟩
  · simp [runNode]
  · simp [runNode]
  · simp [runNode]
  · exact (stripEmphasis_wrapped (by decide) (by decide) (by decide)).2.1
  · exact (stripEmphasis_wrapped (by decide) (by decide) (by decide)).2.2
  · exact (stripEmphasis_wrapped (by decide) (by decide) (by decide)).1

/-- C4 witness: the general delimiter-stripping conjunct applied at a concrete
one-character core. -/
theorem emphasis_range_strip_witness :
    stripEmphasis (q5 ++ str "x" ++ q5) = str "x" ∧
    stripEmphasis (q3 ++ str "x" ++ q3) = str "x" ∧
    stripEmphasis (q2 ++ str "x" ++ q2) = str "x" :=
  emphasis_range_strip.2.1 (str "x") (by decide) (by decide) (by decide)

/-! ## Claim C1: heading flush -/

/-- C1 counterexample.  The claim asserts that a heading always flushes a
non-empty pending buffer — trimmed — and always emits its own (possibly
empty) trimmed text followed by a separator.  On the code: (i) the flush
appends the pending buffer verbatim, untrimmed (first conjunct: the flushed
paragraph is `"a "`, not `"a"`); (ii) a heading whose text is empty
contributes nothing and does not flush, so the pending paragraph stays merged
(second conjunct: the result is the single paragraph `"a"`, not two
paragraphs). -/
theorem heading_flush_counterexample :
    extract_text_from_nodes [.text (str "a "), .heading [.text (str "H")]] [] false
      = str "a " ++ nl2 ++ str "H" ++ nl2 ∧
    extract_text_from_nodes [.text (str "a"), .heading []] [] false = str "a" := by
  constructor
  · simp [extract_text_from_nodes, runNodes, runNode, trim, trimStart, trimEnd,
      isWS, str, nl2, nl, List.dropWhile]
  · simp [extract_text_from_nodes, runNodes, runNode, trim, trimStart, trimEnd,
      isWS, str, nl2, nl, List.dropWhile]

/-- C1 amended.  When a Heading node is encountered: if the heading's own
trimmed extracted text is non-empty, then a non-empty pending buffer is
flushed — appended verbatim (untrimmed), followed by a blank-line separator,
and cleared — and the heading's trimmed text is emitted as its own paragraph
followed by a blank-line separator; if the heading's trimmed text is empty,
the heading contributes nothing and does not flush.  Hence a non-empty
pending paragraph immediately followed by a heading whose trimmed text is
non-empty yields two separate paragraphs. -/
theorem heading_flush_amended (w : Str) (skip : Bool) (ns : List Node) (t cur : Str)
    (hh : trim (extract_text_from_nodes ns w skip) ≠ [])
    (hcur : cur ≠ []) :
    runNode w skip (.heading ns) (t, cur)
      = (t ++ cur ++ nl2 ++ trim (extract_text_from_nodes ns w skip) ++ nl2, []) ∧
    (∀ ns2, trim (extract_text_from_nodes ns2 w skip) = [] →
      runNode w skip (.heading ns2) (t, cur) = (t, cur)) := by
  constructor
  · rw [runNode]
    simp only [List.isEmpty_iff, hh, if_false, hcur, List.append_assoc]
  · intro ns2 h2
    rw [runNode]
    simp only [List.isEmpty_iff, h2, if_true]

/-- C1 witness for the amended theorem at a concrete heading and pending
buffer. -/
theorem heading_flush_amended_witness :
    runNode [] false (.heading [.text (str "H")]) ([], str "a")
      = ([] ++ str "a" ++ nl2 ++ trim (extract_text_from_nodes [.text (str "H")] [] false) ++ nl2, []) ∧
    (∀ ns2, trim (extract_text_from_nodes ns2 [] false) = [] →
      runNode [] false (.heading ns2) ([], str "a") = ([], str "a")) :=
  heading_flush_amended [] false [.text (str "H")] [] (str "a")
    (by simp [extract_text_from_nodes, runNodes, runNode, trim, trimStart, trimEnd,
      isWS, str]) (by simp [str])

/-! ## Claim C5: list flattening -/

/-- C5.  For UnorderedList, OrderedList and DefinitionList nodes: with
`skipLists` true the node contributes nothing; with `skipLists` false the
extraction recurses into each item and appends, for every item whose trimmed
text is non-empty, the trimmed item text followed by a single space to the
pending buffer; the items `["a","b"]` contribute exactly `"a b "`. -/
theorem list_flattening :
    (∀ (w : Str) (items : List (List Node)) (t cur : Str),
      runNode w true (.unorderedList items) (t, cur) = (t, cur) ∧
      runNode w true (.orderedList items) (t, cur) = (t, cur) ∧
      runNode w true (.definitionList items) (t, cur) = (t, cur)) ∧
    (∀ (w : Str) (items : List (List Node)) (t cur : Str),
      runNode w false (.unorderedList items) (t, cur) = (t, cur ++ runItems w false items []) ∧
      runNode w false (.orderedList items) (t, cur) = (t, cur ++ runItems w false items []) ∧
      runNode w false (.definitionList items) (t, cur) = (t, cur ++ runItems w false items [])) ∧
    (∀ (w : Str) (skip : Bool) (it : List Node) (its : List (List Node)) (cur : Str),
      runItems w skip (it :: its) cur
        = (cur ++ (if (trim (extract_text_from_nodes it w skip)).isEmpty then []
                   else trim (extract_text_from_nodes it w skip) ++ [spaceChar]))
          ++ runItems w skip its []) ∧
    runItems [] false [[.text (str "a")], [.text (str "b")]] [] = str "a b " := by
  have happ : ∀ (w : Str) (skip : Bool) (items : List (List Node)) (cur : Str),
      runItems w skip items cur = cur ++ runItems w skip items [] := by
    intro w skip items
    induction items with
    | nil => intro cur; simp [runItems]
    | cons it its ih =>
      intro cur
      rw [runItems, runItems]
      by_cases h : (trim (extract_text_from_nodes it w skip)).isEmpty = true
      · rw [if_pos h, if_pos h]
        exact ih cur
      · rw [if_neg h, if_neg h]
        conv_lhs => rw [ih]
        conv_rhs => rw [ih]
        simp [List.append_assoc]
  refine ⟨?_, ?_, ?_, ?_⟩
  · intro w items t cur
    refine ⟨?_, ?_, ?_⟩ <;> simp [runNode]
  · intro w items t cur
    refine ⟨?_, ?_, ?_⟩ <;>
      (rw [runNode]; simp only [Bool.false_eq_true, if_false]; rw [happ])
  · intro w skip it its cur
    rw [runItems]
    by_cases h : (trim (extract_text_from_nodes it w skip)).isEmpty = true
    · rw [if_pos h, if_pos h, happ]
      simp
    · rw [if_neg h, if_neg h, happ]
      simp [List.append_assoc]
  · simp [runItems, extract_text_from_nodes, runNodes, runNode, trim, trimStart,
      trimEnd, isWS, str, spaceChar]

/-! ## Claim C6: section pruning -/

/-- Spec-side keep predicate for the section pruner: a paragraph is kept iff
it is not heading-only, or the following paragraph exists and is not itself
heading-only. -/
def keepPara (p : Str) (next : Option Str) : Bool :=
  !isEmptySection p ||
    (match next with
     | some q => !isEmptySection q
     | none => false)

/-- C6.  The section pruner is a single forward pass with one paragraph of
lookahead into the original sequence: paragraph `i` is kept iff
`keepPara ps[i] ps[i+1]` holds — a heading-only paragraph is kept iff a
following paragraph exists and is not itself heading-only, and every
non-candidate paragraph passes through.  Concretely, a heading-only paragraph
after `"Intro"` at the end is dropped, and one followed by `"Body"` is
kept. -/
theorem section_pruning :
    (∀ ps : List Str, remove_empty_sections ps
        = (List.range ps.length).filterMap (fun i =>
            ps[i]?.bind (fun p => if keepPara p ps[i+1]? then some p else none))) ∧
    remove_empty_sections [str "Intro", str "Примечания"] = [str "Intro"] ∧
    remove_empty_sections [str "Примечания", str "Body"]
      = [str "Примечания", str "Body"] := by
  refine ⟨?_, by rfl, by rfl⟩
  intro ps
  induction ps with
  | nil => rfl
  | cons p ps ih =>
    rw [List.length_cons, List.range_succ_eq_map, List.filterMap_cons,
      List.filterMap_map]
    have htail : (List.range ps.length).filterMap
        ((fun i => (p :: ps)[i]?.bind
          (fun q => if keepPara q (p :: ps)[i+1]? then some q else none)) ∘ Nat.succ)
        = remove_empty_sections ps := by
      rw [ih]
      apply List.filterMap_congr
      intro i _
      simp [Function.comp, List.getElem?_cons_succ]
    rw [htail]
    simp only [List.getElem?_cons_zero, Option.bind_some, List.getElem?_cons_succ,
      keepPara]
    rw [remove_empty_sections]
    by_cases hp : isEmptySection p = true
    · rw [if_pos hp]
      cases ps with
      | nil => simp [hp]
      | cons q qs =>
        simp only [List.head?_cons, List.getElem?_cons_zero]
        by_cases hq : isEmptySection q = true
        · simp [hp, hq]
        · simp [hp, Bool.of_not_eq_true hq]
    · rw [if_neg hp]
      have hp2 : isEmptySection p = false := Bool.of_not_eq_true hp
      cases ps <;> simp [hp2]

/-! ## Claim C2: complexity guard -/

/-- The synthetic complexity-guard input: sixty table-row markers followed by
two hundred and fifty template-open markers. -/
def synthComplexInput : Str :=
  (List.replicate 60 tableRowMarker).flatten ++ (List.replicate 250 templateOpenMarker).flatten

theorem countMatches_nil (pat : Str) : countMatches pat [] = 0 := by
  simp [countMatches]

theorem countMatches_cons_match (p : Char) (ps s : Str) :
    countMatches (p :: ps) ((p :: ps) ++ s) = 1 + countMatches (p :: ps) s := by
  have hcons : (p :: ps) ++ s = p :: (ps ++ s) := rfl
  rw [hcons, countMatches,
    if_pos ⟨by simp, by rw [← hcons]; exact startsWith_append_self _ _⟩]
  congr 1
  have : (p :: ps).length - 1 = ps.length := by simp
  rw [this, List.drop_left]

theorem countMatches_cons_skip {p x : Char} {ps xs : Str} (hx : x ≠ p) :
    countMatches (p :: ps) (x :: xs) = countMatches (p :: ps) xs := by
  rw [countMatches, if_neg]
  intro hcontra
  have := startsWith_false_of_head (s := x :: xs) (p := p :: ps)
    (by simp) (by simp) hx
  rw [this] at hcontra
  exact absurd hcontra.2 (by simp)

theorem countMatches_flatten_rep (p : Char) (ps s : Str) (n : Nat) :
    countMatches (p :: ps) ((List.replicate n (p :: ps)).flatten ++ s)
      = n + countMatches (p :: ps) s := by
  induction n with
  | zero => simp
  | succ n ih =>
    rw [List.replicate_succ, List.flatten_cons, List.append_assoc,
      countMatches_cons_match, ih]
    omega

theorem countMatches_zero_of {p : Char} {ps : Str} (s : Str)
    (h : ∀ c ∈ s, c ≠ p) : countMatches (p :: ps) s = 0 := by
  induction s with
  | nil => exact countMatches_nil _
  | cons x xs ih =>
    rw [countMatches_cons_skip (h x (by simp))]
    exact ih (fun c hc => h c (by simp [hc]))

theorem countMatches_append_skip {p : Char} {ps : Str} (a b : Str)
    (h : ∀ c ∈ a, c ≠ p) :
    countMatches (p :: ps) (a ++ b) = countMatches (p :: ps) b := by
  induction a with
  | nil => rfl
  | cons x xs ih =>
    rw [List.cons_append, countMatches_cons_skip (h x (by simp))]
    exact ih (fun c hc => h c (by simp [hc]))

theorem synth_mem_chars :
    (∀ c ∈ (List.replicate 60 tableRowMarker).flatten, c = pipeChar ∨ c = Char.ofNat 45) ∧
    (∀ c ∈ (List.replicate 250 templateOpenMarker).flatten, c = openBrace) := by
  constructor
  · intro c hc
    obtain ⟨l, hl, hcl⟩ := List.mem_flatten.mp hc
    rw [List.eq_of_mem_replicate hl,
      show tableRowMarker = [pipeChar, Char.ofNat 45] by decide] at hcl
    simpa using hcl
  · intro c hc
    obtain ⟨l, hl, hcl⟩ := List.mem_flatten.mp hc
    rw [List.eq_of_mem_replicate hl,
      show templateOpenMarker = [openBrace, openBrace] by decide] at hcl
    simp at hcl
    simpa using hcl

theorem synth_tableRow_count : countMatches tableRowMarker synthComplexInput = 60 := by
  have hpat : tableRowMarker = pipeChar :: [Char.ofNat 45] := by decide
  rw [synthComplexInput, hpat]
  rw [← hpat, show tableRowMarker = pipeChar :: [Char.ofNat 45] from hpat] at *
  rw [countMatches_flatten_rep]
  rw [countMatches_zero_of _ (fun c hc => by
    have := synth_mem_chars.2 c hc
    rw [this]; decide)]

theorem synth_template_count : countMatches templateOpenMarker synthComplexInput = 250 := by
  have hpat : templateOpenMarker = openBrace :: [openBrace] := by decide
  rw [synthComplexInput, hpat]
  rw [countMatches_append_skip _ _ (fun c hc => by
    rcases synth_mem_chars.1 c hc with h | h <;> (rw [h]; decide))]
  have := countMatches_flatten_rep openBrace [openBrace] [] 250
  rw [List.append_nil] at this
  rw [← hpat] at this ⊢
  rw [this, countMatches_nil]

theorem synth_file_count :
    countMatches fileMarkerRu synthComplexInput = 0 ∧
    countMatches fileMarkerEn synthComplexInput = 0 := by
  have hall : ∀ c ∈ synthComplexInput, c ≠ openBracket := by
    intro c hc
    rw [synthComplexInput] at hc
    rcases List.mem_append.mp hc with h | h
    · rcases synth_mem_chars.1 c h with h2 | h2 <;> (rw [h2]; decide)
    · rw [synth_mem_chars.2 c h]; decide
  constructor
  · have hpat : fileMarkerRu = openBracket :: (fileMarkerRu.drop 1) := by decide
    rw [hpat]; exact countMatches_zero_of _ hall
  · have hpat : fileMarkerEn = openBracket :: (fileMarkerEn.drop 1) := by decide
    rw [hpat]; exact countMatches_zero_of _ hall

/-- C2.  If the table-row marker count exceeds 50 and the template-open
marker count exceeds 200 or the media-embed marker count exceeds 50, then
`parse_wikitext` returns the fixed sentinel skip message, for every parser
function — the parser and all downstream stages are never consulted;
otherwise it proceeds with the parse pipeline.  In particular the synthetic
input with 60 table-row markers and 250 template-open markers returns
exactly the sentinel message. -/
theorem complexity_guard_skip (parseFn : Str → List Node) (w : Str) (skip : Bool) :
    ((countMatches tableRowMarker w > 50 ∧
      (countMatches templateOpenMarker w > 200 ∨
       countMatches fileMarkerRu w + countMatches fileMarkerEn w > 50)) →
      parse_wikitext parseFn w skip = sentinelSkip) ∧
    (¬(countMatches tableRowMarker w > 50 ∧
      (countMatches templateOpenMarker w > 200 ∨
       countMatches fileMarkerRu w + countMatches fileMarkerEn w > 50)) →
      parse_wikitext parseFn w skip = postParse (parseFn w) w skip) ∧
    parse_wikitext parseFn synthComplexInput skip = sentinelSkip := by
  have hguard : ∀ v : Str, complexityGuard v = true ↔
      (countMatches tableRowMarker v > 50 ∧
       (countMatches templateOpenMarker v > 200 ∨
        countMatches fileMarkerRu v + countMatches fileMarkerEn v > 50)) := by
    intro v
    simp [complexityGuard]
  refine ⟨?_, ?_, ?_⟩
  · intro h
    rw [parse_wikitext, if_pos ((hguard w).mpr h)]
  · intro h
    rw [parse_wikitext, if_neg]
    intro hcontra
    exact h ((hguard w).mp hcontra)
  · rw [parse_wikitext, if_pos ((hguard synthComplexInput).mpr ?_)]
    rw [synth_tableRow_count, synth_template_count]
    exact ⟨by omega, Or.inl (by omega)⟩

/-- C2 witness: the guard branch applied at the synthetic input, with the
marker-count hypotheses discharged by the counting lemmas. -/
theorem complexity_guard_skip_witness :
    parse_wikitext (fun _ => []) synthComplexInput false = sentinelSkip :=
  (complexity_guard_skip (fun _ => []) synthComplexInput false).1
    (by rw [synth_tableRow_count, synth_template_count]
        exact ⟨by omega, Or.inl (by omega)⟩)

/-! ## Claim C9: batch frame effect -/

/-- C9.  The batch step replaces each raw-text column by a nullable
parsed-text column — a null raw value stays null, a non-null value is mapped
through `parse_wikitext` — while the identifier, title and timestamp columns
are carried to the output unchanged; likewise `clean_text_array` maps null to
null and non-null through `clean_text`. -/
theorem batch_frame {α β γ : Type} (parseFn : Str → List Node) (skip : Bool)
    (b : InputBatch α β γ) :
    ((process_batch parseFn skip b).page_id = b.page_id ∧
     (process_batch parseFn skip b).page_title = b.page_title ∧
     (process_batch parseFn skip b).official_timestamp = b.official_timestamp ∧
     (process_batch parseFn skip b).clone_page_title = b.clone_page_title ∧
     (process_batch parseFn skip b).clone_timestamp = b.clone_timestamp) ∧
    (∀ (i : Nat), b.official_text[i]? = some none →
      (process_batch parseFn skip b).official_text_paragraphs[i]? = some none) ∧
    (∀ (i : Nat) (s : Str), b.official_text[i]? = some (some s) →
      (process_batch parseFn skip b).official_text_paragraphs[i]?
        = some (some (parse_wikitext parseFn s skip))) ∧
    (∀ (i : Nat), b.clone_text[i]? = some none →
      (process_batch parseFn skip b).clone_text_paragraphs[i]? = some none) ∧
    (∀ (i : Nat) (s : Str), b.clone_text[i]? = some (some s) →
      (process_batch parseFn skip b).clone_text_paragraphs[i]?
        = some (some (parse_wikitext parseFn s skip))) ∧
    (∀ (a : List (Option Str)) (i : Nat), a[i]? = some none →
      (clean_text_array a)[i]? = some none) ∧
    (∀ (a : List (Option Str)) (i : Nat) (s : Str), a[i]? = some (some s) →
      (clean_text_array a)[i]? = some (some (clean_text s))) := by
  refine ⟨⟨rfl, rfl, rfl, rfl, rfl⟩, ?_, ?_, ?_, ?_, ?_, ?_⟩
  · intro i h
    simp [process_batch, List.getElem?_map, h]
  · intro i s h
    simp [process_batch, List.getElem?_map, h]
  · intro i h
    simp [process_batch, List.getElem?_map, h]
  · intro i s h
    simp [process_batch, List.getElem?_map, h]
  · intro a i h
    simp [clean_text_array, List.getElem?_map, h]
  · intro a i s h
    simp [clean_text_array, List.getElem?_map, h]

/-- C9 witness: a concrete two-row batch with one null and one non-null text
cell in each text column. -/
theorem batch_frame_witness :
    (process_batch (fun _ => []) false
      (InputBatch.mk (α := Unit) (β := Unit) (γ := Unit)
        [some (str "1")] [none] [none, some (str "T")] () () [some (str "U"), none] ())).official_text_paragraphs[0]?
      = some none ∧
    (process_batch (fun _ => []) false
      (InputBatch.mk (α := Unit) (β := Unit) (γ := Unit)
        [some (str "1")] [none] [none, some (str "T")] () () [some (str "U"), none] ())).official_text_paragraphs[1]?
      = some (some (parse_wikitext (fun _ => []) (str "T") false)) ∧
    (clean_text_array [none])[0]? = some none := by
  refine ⟨?_, ?_, ?_⟩
  · exact (batch_frame (fun _ => []) false _).2.1 0 rfl
  · exact (batch_frame (fun _ => []) false _).2.2.1 1 (str "T") rfl
  · exact (batch_frame (fun _ => []) false
      (InputBatch.mk (α := Unit) (β := Unit) (γ := Unit)
        [] [] [] () () [] ())).2.2.2.2.2.1 [none] 0 rfl

/-! ## Claim C3: the date template -/

/-- A fully-formed date-template token `{{СС3|d.m.y}}`. -/
def ss3Token (d m y : Str) : Str :=
  litSS3 ++ d ++ [dotChar] ++ m ++ [dotChar] ++ y ++ [closeBrace, closeBrace]

theorem takeWhile_all_append {p : Char → Bool} {l : Str} (c : Char) (t : Str)
    (hl : l.all p = true) (hc : p c = false) :
    (l ++ c :: t).takeWhile p = l := by
  induction l with
  | nil => simp [List.takeWhile_cons, hc]
  | cons a l ih =>
    simp only [List.all_cons, Bool.and_eq_true] at hl
    simp [List.takeWhile_cons, hl.1, ih hl.2]

theorem scanRepl_match_head (mf : Str → Option (Nat × Str)) (s rest rep : Str)
    (hs : s ≠ []) (hm : mf (s ++ rest) = some (s.length - 1, rep)) :
    scanRepl mf (s ++ rest) = rep ++ scanRepl mf rest := by
  cases s with
  | nil => exact absurd rfl hs
  | cons c cs =>
    rw [List.cons_append] at hm ⊢
    rw [scanRepl, hm]
    have h1 : (c :: cs).length - 1 = cs.length := by simp
    rw [h1]
    show rep ++ scanRepl mf (List.drop cs.length (cs ++ rest)) = rep ++ scanRepl mf rest
    rw [List.drop_left]

theorem matchSS3_token (d m y rest : Str) (hd : d ≠ []) (hm : m ≠ []) (hy : y ≠ [])
    (hdd : d.all Char.isDigit = true) (hmd : m.all Char.isDigit = true)
    (hyd : y.all Char.isDigit = true) :
    matchSS3 (ss3Token d m y ++ rest)
      = some ((ss3Token d m y).length - 1, ss3Repl d m y) := by
  have hshape : ss3Token d m y ++ rest
      = litSS3 ++ (d ++ dotChar :: (m ++ dotChar :: (y ++ closeBrace :: closeBrace :: rest))) := by
    simp [ss3Token, List.append_assoc]
  have hdot : Char.isDigit dotChar = false := by decide
  have hcb : Char.isDigit closeBrace = false := by decide
  have hlen : (ss3Token d m y).length
      = litSS3.length + d.length + 1 + m.length + 1 + y.length + 2 := by
    simp [ss3Token]
    omega
  rw [hshape]
  simp only [matchSS3]
  rw [if_pos (startsWith_append_self _ _), List.drop_left,
    takeWhile_all_append dotChar _ hdd hdot, List.drop_left,
    if_neg (by simpa [List.isEmpty_iff] using hd)]
  rw [show startsWith (dotChar :: (m ++ dotChar :: (y ++ closeBrace :: closeBrace :: rest))) [dotChar] = true by simp [startsWith]]
  rw [if_pos rfl, List.drop_one, List.tail_cons,
    takeWhile_all_append dotChar _ hmd hdot, List.drop_left,
    if_neg (by simpa [List.isEmpty_iff] using hm)]
  rw [show startsWith (dotChar :: (y ++ closeBrace :: closeBrace :: rest)) [dotChar] = true by simp [startsWith]]
  rw [if_pos rfl, List.drop_one, List.tail_cons,
    takeWhile_all_append closeBrace _ hyd hcb, List.drop_left,
    if_neg (by simpa [List.isEmpty_iff] using hy)]
  rw [show startsWith (closeBrace :: closeBrace :: rest) [closeBrace, closeBrace] = true by simp [startsWith]]
  rw [if_pos rfl, hlen]

theorem matchSS3_none_of_head {c : Char} (cs : Str) (h : c ≠ openBrace) :
    matchSS3 (c :: cs) = none := by
  rw [matchSS3, if_neg]
  rw [startsWith_false_of_head (by simp) (by simp [litSS3]) h]
  simp

theorem matchGod_none_of_head {c : Char} (cs : Str) (h : c ≠ openBrace) :
    matchGod (c :: cs) = none := by
  rw [matchGod, if_neg]
  rw [startsWith_false_of_head (by simp) (by simp [litGod]) h]
  simp

theorem matchNum_none_of_head {c : Char} (cs : Str) (h : c ≠ openBrace) :
    matchNum (c :: cs) = none := by
  rw [matchNum, if_neg]
  rw [startsWith_false_of_head (by simp) (by simp [litNum]) h]
  simp

theorem matchCatchAll_none_of_head {c : Char} (cs : Str) (h : c ≠ openBrace) :
    matchCatchAll (c :: cs) = none := by
  rw [matchCatchAll, if_neg]
  rw [startsWith_false_of_head (by simp) (by simp) h]
  simp

theorem scanRepl_id_of_head (mf : Str → Option (Nat × Str))
    (hmf : ∀ (c : Char) (cs : Str), c ≠ openBrace → mf (c :: cs) = none)
    (s : Str) (hs : ∀ c ∈ s, c ≠ openBrace) : scanRepl mf s = s := by
  induction s with
  | nil => simp [scanRepl]
  | cons c cs ih =>
    rw [scanRepl, hmf c cs (hs c (by simp))]
    exact congrArg _ (ih (fun x hx => hs x (by simp [hx])))

theorem monthName_of_large (n : Nat) (h : 12 < n) : monthName n = [] := by
  have h13 : ∀ k, monthName (k + 13) = [] := fun k => rfl
  have : n = (n - 13) + 13 := by omega
  rw [this, h13]

/-- C3.  A well-formed day.month.year date template is rewritten by the first
expansion pass: when the parsed month number is in 1..12 the replacement is
`day monthName year` via the fixed genitive month-name lookup (which is
non-empty exactly there), and otherwise it degrades to
`day.monthNumber.year`, re-printing the parsed numeric month value rather
than the original token.  Concretely, `{{СС3|18.1.1918}}` expands to
`"18 января 1918"`, and the out-of-range month `013` in `{{СС3|5.013.2000}}`
yields `"5.13.2000"` — not the original text token. -/
theorem date_template_expansion :
    (∀ (d m y rest : Str), d ≠ [] → m ≠ [] → y ≠ [] →
      d.all Char.isDigit = true → m.all Char.isDigit = true → y.all Char.isDigit = true →
      scanRepl matchSS3 (ss3Token d m y ++ rest)
        = ss3Repl d m y ++ scanRepl matchSS3 rest) ∧
    (∀ d m y : Str, 1 ≤ parseU32 m → parseU32 m ≤ 12 →
      ss3Repl d m y = d ++ [spaceChar] ++ monthName (parseU32 m) ++ [spaceChar] ++ y ∧
      monthName (parseU32 m) ≠ []) ∧
    (∀ d m y : Str, parseU32 m = 0 ∨ 12 < parseU32 m →
      ss3Repl d m y = d ++ [dotChar] ++ Nat.toDigits 10 (parseU32 m) ++ [dotChar] ++ y) ∧
    expand_common_templates (ss3Token (str "18") (str "1") (str "1918"))
      = str "18 января 1918" ∧
    expand_common_templates (ss3Token (str "5") (str "013") (str "2000"))
      = str "5.13.2000" := by
  have hgen : ∀ (d m y rest : Str), d ≠ [] → m ≠ [] → y ≠ [] →
      d.all Char.isDigit = true → m.all Char.isDigit = true → y.all Char.isDigit = true →
      scanRepl matchSS3 (ss3Token d m y ++ rest)
        = ss3Repl d m y ++ scanRepl matchSS3 rest := by
    intro d m y rest hd hm hy hdd hmd hyd
    exact scanRepl_match_head matchSS3 (ss3Token d m y) rest (ss3Repl d m y)
      (by simp [ss3Token, litSS3]) (matchSS3_token d m y rest hd hm hy hdd hmd hyd)
  have hinr : ∀ d m y : Str, 1 ≤ parseU32 m → parseU32 m ≤ 12 →
      ss3Repl d m y = d ++ [spaceChar] ++ monthName (parseU32 m) ++ [spaceChar] ++ y ∧
      monthName (parseU32 m) ≠ [] := by
    intro d m y h1 h2
    have hname : monthName (parseU32 m) ≠ [] := by
      set mv := parseU32 m with hmv
      interval_cases mv <;> simp [monthName, str]
    refine ⟨?_, hname⟩
    simp only [ss3Repl]
    rw [if_neg (by simpa [List.isEmpty_iff] using hname)]
  have houtr : ∀ d m y : Str, parseU32 m = 0 ∨ 12 < parseU32 m →
      ss3Repl d m y = d ++ [dotChar] ++ Nat.toDigits 10 (parseU32 m) ++ [dotChar] ++ y := by
    intro d m y h
    have hname : monthName (parseU32 m) = [] := by
      rcases h with h | h
      · rw [h]; rfl
      · exact monthName_of_large _ h
    simp only [ss3Repl]
    rw [if_pos (by simp [hname])]
  refine ⟨hgen, hinr, houtr, ?_, ?_⟩
  · have h1 := hgen (str "18") (str "1") (str "1918") []
      (by decide) (by decide) (by decide) (by decide) (by decide) (by decide)
    rw [List.append_nil] at h1
    have hss : scanRepl matchSS3 (ss3Token (str "18") (str "1") (str "1918"))
        = str "18 января 1918" := by
      rw [h1, show scanRepl matchSS3 [] = [] by simp [scanRepl], List.append_nil]
      decide
    have hnob : ∀ c ∈ str "18 января 1918", c ≠ openBrace := by decide
    rw [expand_common_templates, hss,
      scanRepl_id_of_head matchGod (fun c cs h => matchGod_none_of_head cs h) _ hnob,
      scanRepl_id_of_head matchNum (fun c cs h => matchNum_none_of_head cs h) _ hnob,
      scanRepl_id_of_head matchCatchAll (fun c cs h => matchCatchAll_none_of_head cs h) _ hnob]
  · have h1 := hgen (str "5") (str "013") (str "2000") []
      (by decide) (by decide) (by decide) (by decide) (by decide) (by decide)
    rw [List.append_nil] at h1
    have hss : scanRepl matchSS3 (ss3Token (str "5") (str "013") (str "2000"))
        = str "5.13.2000" := by
      rw [h1, show scanRepl matchSS3 [] = [] by simp [scanRepl], List.append_nil]
      decide
    have hnob : ∀ c ∈ str "5.13.2000", c ≠ openBrace := by decide
    rw [expand_common_templates, hss,
      scanRepl_id_of_head matchGod (fun c cs h => matchGod_none_of_head cs h) _ hnob,
      scanRepl_id_of_head matchNum (fun c cs h => matchNum_none_of_head cs h) _ hnob,
      scanRepl_id_of_head matchCatchAll (fun c cs h => matchCatchAll_none_of_head cs h) _ hnob]

/-- C3 witness: the date-rule equation applied at a concrete template token,
with the digit-string hypotheses discharged by computation. -/
theorem date_template_expansion_witness :
    scanRepl matchSS3 (ss3Token (str "7") (str "2") (str "1900") ++ [spaceChar])
      = ss3Repl (str "7") (str "2") (str "1900") ++ scanRepl matchSS3 [spaceChar] :=
  date_template_expansion.1 (str "7") (str "2") (str "1900") [spaceChar]
    (by decide) (by decide) (by decide) (by decide) (by decide) (by decide)

/-! ## Character-predicate preservation through the scrubbing stages -/

theorem all_of_subset {P : Char → Bool} {s t : Str} (hsub : ∀ c ∈ s, c ∈ t)
    (ht : t.all P = true) : s.all P = true := by
  rw [List.all_eq_true] at ht ⊢
  exact fun c hc => ht c (hsub c hc)

theorem all_drop {P : Char → Bool} {s : Str} (k : Nat) (h : s.all P = true) :
    (s.drop k).all P = true :=
  all_of_subset (fun c hc => (List.drop_suffix k s).sublist.subset hc) h

/-- If every replacement a matcher can produce satisfies `P`, the scanner
preserves `P` on all characters. -/
theorem scanRepl_all_aux (mf : Str → Option (Nat × Str)) (P : Char → Bool)
    (hrep : ∀ u k rep, mf u = some (k, rep) → rep.all P = true) :
    ∀ (n : Nat) (s : Str), s.length ≤ n → s.all P = true →
      (scanRepl mf s).all P = true := by
  intro n
  induction n with
  | zero =>
    intro s hl _
    have : s = [] := List.length_eq_zero.mp (Nat.le_zero.mp hl)
    subst this
    simp [scanRepl]
  | succ n ih =>
    intro s hl hall
    cases s with
    | nil => simp [scanRepl]
    | cons c cs =>
      rw [scanRepl]
      simp only [List.length_cons] at hl
      cases hm : mf (c :: cs) with
      | none =>
        rw [List.all_cons, Bool.and_eq_true] at hall
        simp only [List.all_cons, hall.1, Bool.true_and]
        exact ih cs (by omega) hall.2
      | some kr =>
        obtain ⟨k, rep⟩ := kr
        rw [List.all_append]
        rw [List.all_cons, Bool.and_eq_true] at hall
        refine (Bool.and_eq_true _ _).mpr ⟨hrep _ _ _ hm, ?_⟩
        exact ih (cs.drop k) (le_trans (List.drop_suffix k cs).length_le (by omega)) (all_drop k hall.2)

theorem scanRepl_all (mf : Str → Option (Nat × Str)) (P : Char → Bool)
    (hrep : ∀ u k rep, mf u = some (k, rep) → rep.all P = true)
    (s : Str) (hall : s.all P = true) : (scanRepl mf s).all P = true :=
  scanRepl_all_aux mf P hrep s.length s le_rfl hall

theorem scanReplAnchored_all_aux (mf : Str → Option (Nat × Str)) (P : Char → Bool)
    (hrep : ∀ u k rep, mf u = some (k, rep) → rep.all P = true) :
    ∀ (n : Nat) (b : Bool) (s : Str), s.length ≤ n → s.all P = true →
      (scanReplAnchored mf b s).all P = true := by
  intro n
  induction n with
  | zero =>
    intro b s hl _
    have : s = [] := List.length_eq_zero.mp (Nat.le_zero.mp hl)
    subst this
    simp [scanReplAnchored]
  | succ n ih =>
    intro b s hl hall
    cases s with
    | nil => simp [scanReplAnchored]
    | cons c cs =>
      rw [scanReplAnchored]
      simp only [List.length_cons] at hl
      rw [List.all_cons, Bool.and_eq_true] at hall
      by_cases hb : b = true
      · rw [if_pos hb]
        cases hm : mf (c :: cs) with
        | none =>
          simp only [List.all_cons, hall.1, Bool.true_and]
          exact ih _ cs (by omega) hall.2
        | some kr =>
          obtain ⟨k, rep⟩ := kr
          rw [List.all_append]
          refine (Bool.and_eq_true _ _).mpr ⟨hrep _ _ _ hm, ?_⟩
          exact ih _ (cs.drop k) (le_trans (List.drop_suffix k cs).length_le (by omega)) (all_drop k hall.2)
      · rw [if_neg hb]
        simp only [List.all_cons, hall.1, Bool.true_and]
        exact ih _ cs (by omega) hall.2

theorem scanReplAnchored_all (mf : Str → Option (Nat × Str)) (P : Char → Bool)
    (hrep : ∀ u k rep, mf u = some (k, rep) → rep.all P = true)
    (b : Bool) (s : Str) (hall : s.all P = true) :
    (scanReplAnchored mf b s).all P = true :=
  scanReplAnchored_all_aux mf P hrep s.length b s le_rfl hall

theorem collapseNewlines_all_aux (P : Char → Bool) (hnl : P nl = true) :
    ∀ (n : Nat) (s : Str), s.length ≤ n → s.all P = true →
      (collapseNewlines s).all P = true := by
  intro n
  induction n with
  | zero =>
    intro s hl _
    have : s = [] := List.length_eq_zero.mp (Nat.le_zero.mp hl)
    subst this
    simp [collapseNewlines]
  | succ n ih =>
    intro s hl hall
    cases s with
    | nil => simp [collapseNewlines]
    | cons c cs =>
      rw [collapseNewlines]
      simp only [List.length_cons] at hl
      rw [List.all_cons, Bool.and_eq_true] at hall
      by_cases hc : (c == nl) = true
      · rw [if_pos hc, List.all_append]
        refine (Bool.and_eq_true _ _).mpr ⟨?_, ?_⟩
        · by_cases hrun : 2 ≤ (cs.takeWhile (· == nl)).length
          · rw [if_pos hrun]
            simp [nl2, hnl]
          · rw [if_neg hrun]
            simp only [List.all_cons, hall.1, Bool.true_and]
            exact all_of_subset
              (fun x hx => ((List.takeWhile_prefix _).sublist.subset hx)) hall.2
        · exact ih (cs.dropWhile (· == nl))
            (le_trans (cs.dropWhile_suffix (· == nl)).length_le (by omega))
            (all_of_subset (fun x hx => (cs.dropWhile_suffix (· == nl)).sublist.subset hx) hall.2)
      · rw [if_neg hc]
        simp only [List.all_cons, hall.1, Bool.true_and]
        exact ih cs (by omega) hall.2

theorem collapseNewlines_all (P : Char → Bool) (hnl : P nl = true)
    (s : Str) (hall : s.all P = true) : (collapseNewlines s).all P = true :=
  collapseNewlines_all_aux P hnl s.length s le_rfl hall

theorem splitNlChar_subset : ∀ (s : Str), ∀ p ∈ splitNlChar s, ∀ c ∈ p, c ∈ s := by
  intro s
  induction s with
  | nil =>
    intro p hp c hc
    simp [splitNlChar] at hp
    subst hp
    simp at hc
  | cons a as ih =>
    intro p hp c hc
    rw [splitNlChar] at hp
    by_cases ha : (a == nl) = true
    · rw [if_pos ha] at hp
      rcases List.mem_cons.mp hp with h | h
      · subst h; simp at hc
      · exact List.mem_cons_of_mem a (ih p h c hc)
    · rw [if_neg ha] at hp
      cases hsp : splitNlChar as with
      | nil =>
        rw [hsp] at hp
        simp at hp
        subst hp
        simp at hc
        simp [hc]
      | cons q qs =>
        rw [hsp] at hp
        rcases List.mem_cons.mp hp with h | h
        · subst h
          rcases List.mem_cons.mp hc with h2 | h2
          · simp [h2]
          · exact List.mem_cons_of_mem a (ih q (by rw [hsp]; simp) c h2)
        · exact List.mem_cons_of_mem a (ih p (by rw [hsp]; simp [h]) c hc)

theorem stripCR_subset (p : Str) : ∀ c ∈ stripCR p, c ∈ p := by
  intro c hc
  rw [stripCR] at hc
  by_cases h : p.getLast? = some crChar
  · rw [if_pos h] at hc
    exact (List.dropLast_sublist p).subset hc
  · rwa [if_neg h] at hc

theorem linesOf_subset (s : Str) : ∀ p ∈ linesOf s, ∀ c ∈ p, c ∈ s := by
  intro p hp c hc
  rw [linesOf] at hp
  by_cases h : s.isEmpty = true
  · rw [if_pos h] at hp
    simp at hp
  · rw [if_neg h] at hp
    simp only [List.mem_map] at hp
    obtain ⟨q, hq, hpq⟩ := hp
    subst hpq
    have hcq : c ∈ q := stripCR_subset q c hc
    by_cases hlast : s.getLast? = some nl
    · rw [if_pos hlast] at hq
      exact (List.dropLast_sublist s).subset (splitNlChar_subset _ q hq c hcq)
    · rw [if_neg hlast] at hq
      exact splitNlChar_subset _ q hq c hcq

theorem joinWith_all {P : Char → Bool} {sep : Str} (hsep : sep.all P = true) :
    ∀ (ps : List Str), (∀ p ∈ ps, p.all P = true) →
      (joinWith sep ps).all P = true := by
  intro ps
  induction ps with
  | nil => intro _; simp [joinWith]
  | cons p qs ih =>
    intro hall
    cases qs with
    | nil => simpa [joinWith] using hall p (by simp)
    | cons q rest =>
      rw [joinWith, List.all_append, List.all_append]
      simp only [Bool.and_eq_true]
      exact ⟨⟨hall p (by simp), hsep⟩, ih (fun r hr => hall r (by simp [hr]))⟩

theorem matchFileLit_rep (lit u : Str) (k : Nat) (rep : Str)
    (h : matchFileLit lit u = some (k, rep)) : rep = [] := by
  simp only [matchFileLit] at h
  split_ifs at h <;> simp_all

theorem matchFileLink_rep (u : Str) (k : Nat) (rep : Str)
    (h : matchFileLink u = some (k, rep)) : rep = [] := by
  rw [matchFileLink] at h
  cases h1 : matchFileLit (str "[[Файл:") u with
  | some x =>
    rw [h1] at h
    cases h
    exact matchFileLit_rep _ _ _ _ h1
  | none =>
    rw [h1] at h
    exact matchFileLit_rep _ _ _ _ h

theorem matchFragA_rep (u : Str) (k : Nat) (rep : Str)
    (h : matchFragA u = some (k, rep)) : rep = [] := by
  simp only [matchFragA] at h
  split_ifs at h <;> simp_all

theorem matchFragB_rep (u : Str) (k : Nat) (rep : Str)
    (h : matchFragB u = some (k, rep)) : rep = [] := by
  simp only [matchFragB] at h
  split_ifs at h <;> simp_all

theorem matchFragC_rep (u : Str) (k : Nat) (rep : Str)
    (h : matchFragC u = some (k, rep)) : rep = [] := by
  simp only [matchFragC] at h
  split_ifs at h <;> simp_all

theorem matchSimpleTpl_rep (u : Str) (k : Nat) (rep : Str)
    (h : matchSimpleTpl u = some (k, rep)) : rep = [] := by
  simp only [matchSimpleTpl] at h
  split_ifs at h <;> simp_all

theorem matchComplexTpl_rep (u : Str) (k : Nat) (rep : Str)
    (h : matchComplexTpl u = some (k, rep)) : rep = [] := by
  simp only [matchComplexTpl] at h
  split_ifs at h <;> simp_all

/-- The shared image-fragment stages preserve any character predicate that
holds of the newline character (every replacement is empty; the only
character the line join can introduce is a newline). -/
theorem removeImageFragmentsCore_all (P : Char → Bool) (hnl : P nl = true)
    (s : Str) (hall : s.all P = true) :
    (removeImageFragmentsCore s).all P = true := by
  rw [removeImageFragmentsCore]
  have h1 : (scanRepl matchFileLink s).all P = true :=
    scanRepl_all _ P (fun u k rep h => by rw [matchFileLink_rep u k rep h]; rfl) s hall
  have h2 : (joinWith [nl] ((linesOf (scanRepl matchFileLink s)).filter
      (fun line => !imageParamsLine line))).all P = true := by
    apply joinWith_all (by simp [hnl])
    intro p hp
    have hpl : p ∈ linesOf (scanRepl matchFileLink s) := (List.mem_filter.mp hp).1
    exact all_of_subset (fun c hc => by
      have := linesOf_subset _ p hpl c hc
      exact this) h1 |>.symm ▸ (all_of_subset (linesOf_subset _ p hpl) h1)
  have h3 := scanReplAnchored_all _ P
    (fun u k rep h => by rw [matchFragA_rep u k rep h]; rfl) true _ h2
  have h4 := scanReplAnchored_all _ P
    (fun u k rep h => by rw [matchFragB_rep u k rep h]; rfl) true _ h3
  exact scanReplAnchored_all _ P
    (fun u k rep h => by rw [matchFragC_rep u k rep h]; rfl) true _ h4

/-! ## Claim C8: the residue scrubber leaves no braces -/

/-- C8.  The brace-scrubbing stages of `clean_text` — the iterative innermost
`{{...}}` strip (at most 10 rounds, stopping early on no length change), the
bounded complex-template pass, and the lone-brace backstop — produce a string
with no brace character at all; and the braces stay absent through the full
`clean_text` pipeline (image-fragment removal and newline collapse never
introduce one). -/
theorem brace_scrub (s : Str) :
    (cleanBraceStages s).all (fun c => !isBrace c) = true ∧
    (clean_text s).all (fun c => !isBrace c) = true := by
  have h1 : (cleanBraceStages s).all (fun c => !isBrace c) = true := by
    rw [cleanBraceStages, List.all_eq_true]
    intro c hc
    exact (List.mem_filter.mp hc).2
  refine ⟨h1, ?_⟩
  rw [clean_text]
  exact collapseNewlines_all _ (by decide) _
    (removeImageFragmentsCore_all _ (by decide) _ h1)

/-! ## Claim C7: newline collapsing is idempotent -/

/-- Whether a string contains a run of three (hence three or more)
consecutive newlines. -/
def hasTripleNl (s : Str) : Bool := containsSub s [nl, nl, nl]

theorem head?_dropWhile_not (p : Char → Bool) :
    ∀ (s : Str) (c : Char), (s.dropWhile p).head? = some c → p c = false := by
  intro s
  induction s with
  | nil => intro c hc; simp [List.dropWhile] at hc
  | cons a as ih =>
    intro c hc
    rw [List.dropWhile_cons] at hc
    by_cases ha : p a = true
    · rw [if_pos ha] at hc
      exact ih c hc
    · rw [if_neg ha] at hc
      simp only [List.head?_cons, Option.some.injEq] at hc
      subst hc
      exact Bool.of_not_eq_true ha

theorem startsWith_nl_pat_false {t : Str} (h : t.head? ≠ some nl) (z : Str) :
    startsWith t (nl :: z) = false := by
  cases t with
  | nil => rfl
  | cons c cs =>
    simp only [List.head?_cons, ne_eq, Option.some.injEq] at h
    simp [startsWith, h]

theorem containsSub_nil_of_pat (c : Char) (z : Str) : containsSub [] (c :: z) = false := rfl

theorem noTriple_one_nl {t : Str} (hh : t.head? ≠ some nl)
    (ht : containsSub t [nl, nl, nl] = false) :
    containsSub (nl :: t) [nl, nl, nl] = false := by
  rw [containsSub, ht]
  simp only [Bool.or_false]
  show (nl == nl && startsWith t [nl, nl]) = false
  rw [startsWith_nl_pat_false hh]
  simp

theorem noTriple_two_nl {t : Str} (hh : t.head? ≠ some nl)
    (ht : containsSub t [nl, nl, nl] = false) :
    containsSub (nl :: nl :: t) [nl, nl, nl] = false := by
  rw [containsSub, noTriple_one_nl hh ht]
  simp only [Bool.or_false]
  show (nl == nl && (nl == nl && startsWith t [nl])) = false
  rw [startsWith_nl_pat_false hh]
  simp

theorem collapseNewlines_head {s : Str} (h : s.head? ≠ some nl) :
    (collapseNewlines s).head? ≠ some nl := by
  cases s with
  | nil => simp [collapseNewlines]
  | cons c cs =>
    simp only [List.head?_cons, ne_eq, Option.some.injEq] at h
    rw [collapseNewlines, if_neg (by simp [h])]
    simp [h]

theorem dropWhile_nl_head (cs : Str) :
    (cs.dropWhile (· == nl)).head? ≠ some nl := by
  intro hcontra
  have := head?_dropWhile_not (· == nl) cs nl hcontra
  simp at this

theorem collapseNewlines_nil : collapseNewlines [] = [] := by
  simp [collapseNewlines]

theorem collapseNewlines_noTriple_aux :
    ∀ (n : Nat) (s : Str), s.length ≤ n →
      containsSub (collapseNewlines s) [nl, nl, nl] = false := by
  intro n
  induction n with
  | zero =>
    intro s hl
    have : s = [] := List.length_eq_zero.mp (Nat.le_zero.mp hl)
    subst this
    rw [collapseNewlines_nil]
    rfl
  | succ n ih =>
    intro s hl
    cases s with
    | nil => rw [collapseNewlines_nil]; rfl
    | cons c cs =>
      simp only [List.length_cons] at hl
      simp only [collapseNewlines]
      by_cases hc : (c == nl) = true
      · rw [if_pos hc]
        have hresthead : (collapseNewlines (cs.dropWhile (· == nl))).head? ≠ some nl :=
          collapseNewlines_head (dropWhile_nl_head cs)
        have hrest : containsSub (collapseNewlines (cs.dropWhile (· == nl))) [nl, nl, nl] = false :=
          ih _ (le_trans (cs.dropWhile_suffix (· == nl)).length_le (by omega))
        by_cases hrun : 2 ≤ (cs.takeWhile (· == nl)).length
        · rw [if_pos hrun]
          exact noTriple_two_nl hresthead hrest
        · rw [if_neg hrun]
          cases hr : cs.takeWhile (· == nl) with
          | nil =>
            have hcnl : c = nl := by simpa using hc
            subst hcnl
            exact noTriple_one_nl hresthead hrest
          | cons x xs =>
            have hx : x = nl := by
              have hmem : x ∈ cs.takeWhile (· == nl) := by rw [hr]; simp
              simpa using List.mem_takeWhile_imp hmem
            have hxs : xs = [] := by
              cases xs with
              | nil => rfl
              | cons y ys =>
                exfalso
                apply hrun
                rw [hr]
                simp only [List.length_cons]
                omega
            have hcnl : c = nl := by simpa using hc
            subst hcnl hx hxs
            exact noTriple_two_nl hresthead hrest
      · rw [if_neg hc]
        rw [containsSub, ih cs (by omega)]
        simp only [Bool.or_false]
        show (c == nl && startsWith (collapseNewlines cs) [nl, nl]) = false
        simp [Bool.of_not_eq_true hc]

theorem containsSub_false_of_suffix {a b pat : Str} (hsuf : a <:+ b)
    (hb : containsSub b pat = false) : containsSub a pat = false := by
  by_contra hcontra
  have ha : containsSub a pat = true := by
    cases h : containsSub a pat with
    | true => rfl
    | false => exact absurd h hcontra
  have : pat <:+: b := (containsSub_iff.mp ha).trans hsuf.isInfix
  rw [containsSub_iff.mpr this] at hb
  exact absurd hb (by simp)

theorem collapseNewlines_id_aux :
    ∀ (n : Nat) (s : Str), s.length ≤ n → containsSub s [nl, nl, nl] = false →
      collapseNewlines s = s := by
  intro n
  induction n with
  | zero =>
    intro s hl _
    have : s = [] := List.length_eq_zero.mp (Nat.le_zero.mp hl)
    subst this
    exact collapseNewlines_nil
  | succ n ih =>
    intro s hl hs
    cases s with
    | nil => exact collapseNewlines_nil
    | cons c cs =>
      simp only [List.length_cons] at hl
      simp only [collapseNewlines]
      by_cases hc : (c == nl) = true
      · rw [if_pos hc]
        have hcnl : c = nl := by simpa using hc
        subst hcnl
        have hrun : ¬ 2 ≤ (cs.takeWhile (· == nl)).length := by
          intro hcontra
          cases hr : cs.takeWhile (· == nl) with
          | nil => rw [hr] at hcontra; simp at hcontra
          | cons x xs =>
            cases xs with
            | nil => rw [hr] at hcontra; simp at hcontra
            | cons y ys =>
              have hx : x = nl := by
                have hmem : x ∈ cs.takeWhile (· == nl) := by rw [hr]; simp
                simpa using List.mem_takeWhile_imp hmem
              have hy : y = nl := by
                have hmem : y ∈ cs.takeWhile (· == nl) := by rw [hr]; simp
                simpa using List.mem_takeWhile_imp hmem
              have hcs : cs = nl :: nl :: (ys ++ cs.dropWhile (· == nl)) := by
                conv_lhs => rw [← List.takeWhile_append_dropWhile (p := (· == nl)) (l := cs)]
                rw [hr, hx, hy]
                simp
              rw [hcs] at hs
              rw [show containsSub (nl :: nl :: nl :: (ys ++ cs.dropWhile (· == nl)))
                  [nl, nl, nl] = (startsWith (nl :: nl :: nl :: (ys ++ cs.dropWhile (· == nl))) [nl, nl, nl]
                    || containsSub (nl :: nl :: (ys ++ cs.dropWhile (· == nl))) [nl, nl, nl]) from rfl] at hs
              rw [show startsWith (nl :: nl :: nl :: (ys ++ cs.dropWhile (· == nl))) [nl, nl, nl]
                  = ((nl == nl) && ((nl == nl) && ((nl == nl) && startsWith (ys ++ cs.dropWhile (· == nl)) []))) from rfl] at hs
              rw [startsWith_nil] at hs
              simp at hs
        rw [if_neg hrun]
        have hdecomp : cs.takeWhile (· == nl) ++ cs.dropWhile (· == nl) = cs :=
          List.takeWhile_append_dropWhile (· == nl) cs
        have hrest : collapseNewlines (cs.dropWhile (· == nl)) = cs.dropWhile (· == nl) := by
          apply ih _ (le_trans (cs.dropWhile_suffix (· == nl)).length_le (by omega))
          apply containsSub_false_of_suffix
            ((cs.dropWhile_suffix (· == nl)).trans (List.suffix_cons nl cs))
          exact hs
        rw [hrest]
        rw [show nl :: cs.takeWhile (· == nl) ++ cs.dropWhile (· == nl)
            = nl :: (cs.takeWhile (· == nl) ++ cs.dropWhile (· == nl)) from rfl, hdecomp]
      · rw [if_neg hc]
        have hcs : containsSub cs [nl, nl, nl] = false := by
          apply containsSub_false_of_suffix (List.suffix_cons c cs) hs
        rw [ih cs (by omega) hcs]

theorem prefix_append_split {pat x y : Str} (h : pat <+: x ++ y) :
    pat <+: x ∨ (x <+: pat ∧ pat = x ++ y.take (pat.length - x.length) ∧
      y.take (pat.length - x.length) <+: y) := by
  have htake : pat = (x ++ y).take pat.length := List.prefix_iff_eq_take.mp h
  by_cases hle : pat.length ≤ x.length
  · left
    rw [htake, List.take_append_of_le_length hle]
    exact List.take_prefix _ x
  · right
    have hx : x.take pat.length = x := List.take_of_length_le (by omega)
    have hpat : pat = x ++ y.take (pat.length - x.length) := by
      conv_lhs => rw [htake]
      rw [List.take_append_eq_append_take, hx]
    exact ⟨⟨y.take (pat.length - x.length), hpat.symm⟩, hpat, List.take_prefix _ y⟩

/-- An infix of an append is an infix of either part or spans the boundary as
a non-empty suffix of the left part glued to a non-empty prefix of the
right part. -/
theorem infix_append_split {pat x y : Str} (h : pat <:+: x ++ y) :
    pat <:+: x ∨ pat <:+: y ∨
      ∃ x2 y1, x2 ≠ [] ∧ y1 ≠ [] ∧ x2 <:+ x ∧ y1 <+: y ∧ pat = x2 ++ y1 := by
  induction x generalizing pat with
  | nil => right; left; simpa using h
  | cons c x' ih =>
    rw [List.cons_append, List.infix_cons_iff] at h
    rcases h with h | h
    · rcases prefix_append_split (x := c :: x') h with h2 | ⟨hxp, hpeq, hyt⟩
      · exact Or.inl h2.isInfix
      · by_cases hy1 : y.take (pat.length - (c :: x').length) = []
        · left
          rw [hpeq, hy1, List.append_nil]
        · right; right
          exact ⟨c :: x', _, by simp, hy1, List.suffix_rfl, hyt, hpeq⟩
    · rcases ih h with h2 | h2 | ⟨x2, y1, hne1, hne2, hsuf, hpre, heq⟩
      · exact Or.inl (List.infix_cons h2)
      · exact Or.inr (Or.inl h2)
      · exact Or.inr (Or.inr ⟨x2, y1, hne1, hne2, hsuf.trans (List.suffix_cons c x'), hpre, heq⟩)

theorem containsSub_false_of_infix {a b pat : Str} (hinf : a <:+: b)
    (hb : containsSub b pat = false) : containsSub a pat = false := by
  cases h : containsSub a pat with
  | false => rfl
  | true =>
    rw [containsSub_iff.mpr ((containsSub_iff.mp h).trans hinf)] at hb
    exact absurd hb (by simp)

/-- Gluing two triple-newline-free strings stays triple-newline-free when
either the right side does not start with a newline or the left side does not
end with one. -/
theorem noTriple_glue {a b : Str}
    (ha : containsSub a [nl, nl, nl] = false)
    (hb : containsSub b [nl, nl, nl] = false)
    (hbd : (∀ hd, b.head? = some hd → hd ≠ nl) ∨
           (∀ lst, a.getLast? = some lst → lst ≠ nl)) :
    containsSub (a ++ b) [nl, nl, nl] = false := by
  cases hcs : containsSub (a ++ b) [nl, nl, nl] with
  | false => rfl
  | true =>
    exfalso
    have hinf := containsSub_iff.mp hcs
    rcases infix_append_split hinf with h | h | ⟨x2, y1, hne1, hne2, hsuf, hpre, heq⟩
    · rw [containsSub_iff.mpr h] at ha
      exact absurd ha (by simp)
    · rw [containsSub_iff.mpr h] at hb
      exact absurd hb (by simp)
    · have hallnl : ∀ c ∈ x2 ++ y1, c = nl := by
        rw [← heq]
        intro c hc
        simp only [List.mem_cons, List.not_mem_nil, or_false] at hc
        rcases hc with h | h | h <;> exact h
      rcases hbd with hbd | hbd
      · obtain ⟨c, cs', rfl⟩ := List.exists_cons_of_ne_nil hne2
        have hcnl : c = nl := hallnl c (by simp)
        have hbhead : b.head? = some c := by
          rcases hpre with ⟨t, ht⟩
          rw [← ht]
          simp
        exact hbd c hbhead hcnl
      · have hx2last : x2.getLast? = some nl := by
          have hmem : x2.getLast hne1 ∈ x2 := List.getLast_mem hne1
          have heqnl := hallnl _ (List.mem_append_left y1 hmem)
          rw [List.getLast?_eq_getLast x2 hne1, heqnl]
        have halast : a.getLast? = some nl := by
          rcases hsuf with ⟨t, ht⟩
          rw [← ht, List.getLast?_append_of_ne_nil t hne1, hx2last]
        exact hbd nl halast rfl

/-- C7.  Newline collapsing is idempotent: the collapsed string never
contains a run of three (or more) consecutive newlines, and applying the
collapsing step a second time changes nothing. -/
theorem newline_collapse_idempotent (s : Str) :
    hasTripleNl (collapseNewlines s) = false ∧
    collapseNewlines (collapseNewlines s) = collapseNewlines s := by
  have h1 : hasTripleNl (collapseNewlines s) = false :=
    collapseNewlines_noTriple_aux s.length s le_rfl
  exact ⟨h1, collapseNewlines_id_aux (collapseNewlines s).length _ le_rfl h1⟩

/-! ## Structure of the paragraph split -/

theorem splitNl2_ne_nil (s : Str) : splitNl2 s ≠ [] := by
  cases s with
  | nil => simp [splitNl2]
  | cons c cs =>
    rw [splitNl2]
    by_cases hc : (c == nl && startsWith cs [nl]) = true
    · rw [if_pos hc]
      simp
    · rw [if_neg hc]
      cases hsp : splitNl2 cs <;> simp

theorem splitNl2_head (s : Str) (p : Str) (ps : List Str)
    (h : splitNl2 s = p :: ps) : p = [] ∨ p.head? = s.head? := by
  cases s with
  | nil =>
    rw [splitNl2] at h
    left
    exact (List.cons.injEq _ _ _ _ ▸ h).1.symm
  | cons c cs =>
    rw [splitNl2] at h
    by_cases hc : (c == nl && startsWith cs [nl]) = true
    · rw [if_pos hc] at h
      left
      exact ((List.cons.injEq _ _ _ _).mp h).1.symm
    · rw [if_neg hc] at h
      cases hsp : splitNl2 cs with
      | nil => exact absurd hsp (splitNl2_ne_nil cs)
      | cons q qs =>
        rw [hsp] at h
        right
        rw [← ((List.cons.injEq _ _ _ _).mp h).1]
        rfl

theorem head?_ne_of_startsWith_single_false {t : Str} {x : Char}
    (h : startsWith t [x] = false) : t.head? ≠ some x := by
  cases t with
  | nil => simp
  | cons d ds =>
    intro hcontra
    simp only [List.head?_cons, Option.some.injEq] at hcontra
    subst hcontra
    rw [show startsWith (d :: ds) [d] = (d == d && startsWith ds []) from rfl,
      startsWith_nil] at h
    simp at h

theorem splitNl2_noDouble_aux :
    ∀ (n : Nat) (s : Str), s.length ≤ n →
      ∀ p ∈ splitNl2 s, containsSub p [nl, nl] = false := by
  intro n
  induction n with
  | zero =>
    intro s hl p hp
    have : s = [] := List.length_eq_zero.mp (Nat.le_zero.mp hl)
    subst this
    rw [splitNl2] at hp
    simp at hp
    subst hp
    rfl
  | succ n ih =>
    intro s hl p hp
    cases s with
    | nil =>
      rw [splitNl2] at hp
      simp at hp
      subst hp
      rfl
    | cons c cs =>
      simp only [List.length_cons] at hl
      rw [splitNl2] at hp
      by_cases hc : (c == nl && startsWith cs [nl]) = true
      · rw [if_pos hc] at hp
        rcases List.mem_cons.mp hp with rfl | hp2
        · rfl
        · exact ih (cs.drop 1) (le_trans (List.drop_suffix 1 cs).length_le (by omega)) p hp2
      · rw [if_neg hc] at hp
        cases hsp : splitNl2 cs with
        | nil => exact absurd hsp (splitNl2_ne_nil cs)
        | cons q qs =>
          rw [hsp] at hp
          have hq : containsSub q [nl, nl] = false :=
            ih cs (by omega) q (by rw [hsp]; simp)
          rcases List.mem_cons.mp hp with rfl | hp2
          · rw [containsSub, hq]
            simp only [Bool.or_false]
            show (c == nl && startsWith q [nl]) = false
            by_cases hcnl : (c == nl) = true
            · have hsw : startsWith cs [nl] = false := by
                cases hx : startsWith cs [nl] with
                | false => rfl
                | true => exact absurd (by rw [hcnl, hx]; rfl : (c == nl && startsWith cs [nl]) = true) hc
              have hqh : q.head? ≠ some nl := by
                rcases splitNl2_head cs q qs hsp with hq0 | hqh
                · subst hq0; simp
                · rw [hqh]
                  exact head?_ne_of_startsWith_single_false hsw
              rw [startsWith_nl_pat_false hqh]
              simp
            · simp [Bool.of_not_eq_true hcnl]
          · exact ih cs (by omega) p (by rw [hsp]; simp [hp2])

theorem splitNl2_subset_aux :
    ∀ (n : Nat) (s : Str), s.length ≤ n →
      ∀ p ∈ splitNl2 s, ∀ c ∈ p, c ∈ s := by
  intro n
  induction n with
  | zero =>
    intro s hl p hp c hc
    have : s = [] := List.length_eq_zero.mp (Nat.le_zero.mp hl)
    subst this
    rw [splitNl2] at hp
    simp at hp
    subst hp
    simp at hc
  | succ n ih =>
    intro s hl p hp c hc
    cases s with
    | nil =>
      rw [splitNl2] at hp
      simp at hp
      subst hp
      simp at hc
    | cons a cs =>
      simp only [List.length_cons] at hl
      rw [splitNl2] at hp
      by_cases ha : (a == nl && startsWith cs [nl]) = true
      · rw [if_pos ha] at hp
        rcases List.mem_cons.mp hp with rfl | hp2
        · simp at hc
        · have := ih (cs.drop 1) (le_trans (List.drop_suffix 1 cs).length_le (by omega)) p hp2 c hc
          exact List.mem_cons_of_mem a ((List.drop_suffix 1 cs).sublist.subset this)
      · rw [if_neg ha] at hp
        cases hsp : splitNl2 cs with
        | nil => exact absurd hsp (splitNl2_ne_nil cs)
        | cons q qs =>
          rw [hsp] at hp
          rcases List.mem_cons.mp hp with rfl | hp2
          · rcases List.mem_cons.mp hc with rfl | hc2
            · simp
            · exact List.mem_cons_of_mem a (ih cs (by omega) q (by rw [hsp]; simp) c hc2)
          · exact List.mem_cons_of_mem a (ih cs (by omega) p (by rw [hsp]; simp [hp2]) c hc)

/-! ## Trim structure -/

theorem trimStart_of_head {s : Str} {c : Char} (h : s.head? = some c)
    (hw : isWS c = false) : trimStart s = s := by
  cases s with
  | nil => rfl
  | cons a as =>
    simp only [List.head?_cons, Option.some.injEq] at h
    subst h
    rw [trimStart, List.dropWhile_cons, if_neg (by simp [hw])]

theorem trimEnd_of_getLast {s : Str} {c : Char} (h : s.getLast? = some c)
    (hw : isWS c = false) : trimEnd s = s := by
  rw [trimEnd]
  cases hr : s.reverse with
  | nil =>
    have : s = [] := by simpa using congrArg List.reverse hr
    subst this
    simp at h
  | cons a as =>
    have hhead : s.reverse.head? = some c := by rw [List.head?_reverse]; exact h
    rw [hr] at hhead
    simp only [List.head?_cons, Option.some.injEq] at hhead
    subst hhead
    rw [List.dropWhile_cons, if_neg (by simp [hw]), ← hr, List.reverse_reverse]

theorem trimEnd_prefix_self (s : Str) : trimEnd s <+: s := by
  rw [trimEnd]
  have h1 : s.reverse.dropWhile isWS <:+ s.reverse := List.dropWhile_suffix isWS
  have h2 : (s.reverse.dropWhile isWS).reverse <+: s.reverse.reverse :=
    List.reverse_prefix.mpr h1
  rwa [List.reverse_reverse] at h2

theorem trim_infix_self (s : Str) : trim s <:+: s := by
  rw [trim]
  exact ((trimEnd_prefix_self (trimStart s)).isInfix).trans (List.dropWhile_suffix isWS).isInfix

theorem trim_head_not_ws {s : Str} {c : Char} {cs : Str}
    (h : trim s = c :: cs) : isWS c = false := by
  have hpre : trim s <+: trimStart s := trimEnd_prefix_self (trimStart s)
  rcases hpre with ⟨t, ht⟩
  rw [h] at ht
  have hh : (trimStart s).head? = some c := by rw [← ht]; rfl
  exact head?_dropWhile_not isWS s c hh

theorem trim_last_not_ws {s : Str} {c : Char}
    (h : (trim s).getLast? = some c) : isWS c = false := by
  rw [trim, trimEnd, List.getLast?_reverse] at h
  exact head?_dropWhile_not isWS (trimStart s).reverse c h

theorem trim_trim (s : Str) : trim (trim s) = trim s := by
  cases h : trim s with
  | nil => rfl
  | cons c cs =>
    rw [← h]
    have hc : isWS c = false := trim_head_not_ws h
    have h1 : trimStart (trim s) = trim s :=
      trimStart_of_head (by rw [h]; rfl) hc
    obtain ⟨d, hd⟩ : ∃ d, (trim s).getLast? = some d := by
      rw [h, List.getLast?_eq_getLast _ (by simp)]
      exact ⟨_, rfl⟩
    have h2 : trimEnd (trim s) = trim s :=
      trimEnd_of_getLast hd (trim_last_not_ws hd)
    show trimEnd (trimStart (trim s)) = trim s
    rw [h1, h2]

theorem all_isWS_trim_nil {s : Str} (h : s.all isWS = true) : trim s = [] := by
  have h1 : trimStart s = [] := by
    rw [trimStart, List.dropWhile_eq_nil_iff]
    intro x hx
    exact (List.all_eq_true.mp h) x hx
  rw [trim, h1]
  rfl

/-! ## Structure of the blank-line join -/

theorem joinWith_head (p : Str) (qs : List Str) (hp : p ≠ []) :
    (joinWith nl2 (p :: qs)).head? = p.head? := by
  cases qs with
  | nil => rfl
  | cons q rest =>
    rw [joinWith]
    cases p with
    | nil => exact absurd rfl hp
    | cons c cs => rfl

theorem joinWith_ne_nil (p : Str) (qs : List Str) (hp : p ≠ []) :
    joinWith nl2 (p :: qs) ≠ [] := by
  intro hcontra
  have := joinWith_head p qs hp
  rw [hcontra] at this
  cases p with
  | nil => exact absurd rfl hp
  | cons c cs => simp at this

theorem joinWith_getLast :
    ∀ (ps : List Str), (∀ p ∈ ps, p ≠ []) → ps ≠ [] →
      ∃ q ∈ ps, (joinWith nl2 ps).getLast? = q.getLast? := by
  intro ps
  induction ps with
  | nil => intro _ h; exact absurd rfl h
  | cons p qs ih =>
    intro hne _
    cases qs with
    | nil => exact ⟨p, by simp, rfl⟩
    | cons q rest =>
      obtain ⟨q2, hq2mem, hq2⟩ := ih (fun r hr => hne r (by simp [hr])) (by simp)
      refine ⟨q2, by simp [hq2mem], ?_⟩
      rw [joinWith, List.getLast?_append_of_ne_nil _
        (joinWith_ne_nil q rest (hne q (by simp))), hq2]

theorem noDouble_noTriple {p : Str} (h : containsSub p [nl, nl] = false) :
    containsSub p [nl, nl, nl] = false := by
  cases h3 : containsSub p [nl, nl, nl] with
  | false => rfl
  | true =>
    have hinf : [nl, nl, nl] <:+: p := containsSub_iff.mp h3
    have h2 : [nl, nl] <:+: p := (List.IsPrefix.isInfix ⟨[nl], rfl⟩).trans hinf
    rw [containsSub_iff.mpr h2] at h
    exact absurd h (by simp)

theorem isWS_nl : isWS nl = true := by decide

theorem joinWith_noTriple :
    ∀ (ps : List Str),
      (∀ p ∈ ps, p ≠ [] ∧ trim p = p ∧ containsSub p [nl, nl] = false) →
      containsSub (joinWith nl2 ps) [nl, nl, nl] = false := by
  intro ps
  induction ps with
  | nil => intro _; rfl
  | cons p qs ih =>
    intro hps
    obtain ⟨hpne, hptr, hpnd⟩ := hps p (by simp)
    cases qs with
    | nil => exact noDouble_noTriple hpnd
    | cons q rest =>
      obtain ⟨hqne, hqtr, _⟩ := hps q (by simp)
      have hlastp : ∀ lst, p.getLast? = some lst → lst ≠ nl := by
        intro lst hlst hcontra
        subst hcontra
        have : isWS nl = false := trim_last_not_ws (hptr.symm ▸ hlst)
        rw [isWS_nl] at this
        exact absurd this (by simp)
      have ha : containsSub (p ++ nl2) [nl, nl, nl] = false := by
        apply noTriple_glue (noDouble_noTriple hpnd) (by decide)
        exact Or.inr hlastp
      have hrhead : ∀ hd, (joinWith nl2 (q :: rest)).head? = some hd → hd ≠ nl := by
        intro hd hh hcontra
        subst hcontra
        rw [joinWith_head q rest hqne] at hh
        cases q with
        | nil => exact absurd rfl hqne
        | cons qc qcs =>
          simp only [List.head?_cons, Option.some.injEq] at hh
          have : isWS qc = false := trim_head_not_ws (hqtr.trans rfl)
          rw [hh, isWS_nl] at this
          simp at this
      have hr : containsSub (joinWith nl2 (q :: rest)) [nl, nl, nl] = false :=
        ih (fun r hr => hps r (by simp [hr]))
      rw [joinWith]
      exact noTriple_glue ha hr (Or.inl hrhead)

theorem joinWith_trim :
    ∀ (ps : List Str),
      (∀ p ∈ ps, p ≠ [] ∧ trim p = p) →
      trim (joinWith nl2 ps) = joinWith nl2 ps := by
  intro ps hps
  cases ps with
  | nil => rfl
  | cons p qs =>
    obtain ⟨hpne, hptr⟩ := hps p (by simp)
    obtain ⟨q, hqmem, hqlast⟩ := joinWith_getLast (p :: qs)
      (fun r hr => (hps r hr).1) (by simp)
    obtain ⟨hqne, hqtr⟩ := hps q hqmem
    cases hp : p with
    | nil => exact absurd hp hpne
    | cons c cs =>
      rw [← hp]
      have hchead : (joinWith nl2 (p :: qs)).head? = some c := by
        rw [joinWith_head p qs hpne, hp]
        rfl
      have hcws : isWS c = false := by
        apply trim_head_not_ws
        rw [hptr, hp]
      obtain ⟨d, hd⟩ : ∃ d, q.getLast? = some d := by
        cases hq : q with
        | nil => exact absurd hq hqne
        | cons e es =>
          rw [List.getLast?_eq_getLast _ (by simp)]
          exact ⟨_, rfl⟩
      have hdws : isWS d = false := trim_last_not_ws (hqtr.symm ▸ hd)
      have h1 : trimStart (joinWith nl2 (p :: qs)) = joinWith nl2 (p :: qs) :=
        trimStart_of_head hchead hcws
      have h2 : trimEnd (joinWith nl2 (p :: qs)) = joinWith nl2 (p :: qs) :=
        trimEnd_of_getLast (by rw [hqlast]; exact hd) hdws
      show trimEnd (trimStart (joinWith nl2 (p :: qs))) = joinWith nl2 (p :: qs)
      rw [h1, h2]

/-! ## Claim C10: shape of the parse output -/

/-- The paragraph list produced inside `parse_wikitext` after the split on
blank lines, trimming, empty filtering, and section pruning. -/
def parsedParagraphs (nodes : List Node) (w : Str) (skip : Bool) : List Str :=
  remove_empty_sections
    (((splitNl2 (remove_image_fragments (expand_common_templates
      (extract_text_from_nodes nodes w skip)))).map trim).filter (fun p => !p.isEmpty))

theorem postParse_eq (nodes : List Node) (w : Str) (skip : Bool) :
    postParse nodes w skip = joinWith nl2 (parsedParagraphs nodes w skip) := rfl

theorem remove_empty_sections_subset :
    ∀ (ps : List Str), ∀ q ∈ remove_empty_sections ps, q ∈ ps := by
  intro ps
  induction ps with
  | nil => simp [remove_empty_sections]
  | cons p rest ih =>
    intro q hq
    rw [remove_empty_sections] at hq
    by_cases hp : isEmptySection p = true
    · rw [if_pos hp] at hq
      cases hh : rest.head? with
      | some r =>
        rw [hh] at hq
        have hq2 : q ∈ (if isEmptySection r = true then remove_empty_sections rest
            else p :: remove_empty_sections rest) := hq
        by_cases hr : isEmptySection r = true
        · rw [if_pos hr] at hq2
          exact List.mem_cons_of_mem p (ih q hq2)
        · rw [if_neg hr] at hq2
          rcases List.mem_cons.mp hq2 with rfl | hq3
          · simp
          · exact List.mem_cons_of_mem p (ih q hq3)
      | none =>
        rw [hh] at hq
        have hq2 : q ∈ remove_empty_sections rest := hq
        exact List.mem_cons_of_mem p (ih q hq2)
    · rw [if_neg hp] at hq
      rcases List.mem_cons.mp hq with rfl | hq2
      · simp
      · exact List.mem_cons_of_mem p (ih q hq2)

theorem parsedParagraphs_props (nodes : List Node) (w : Str) (skip : Bool) :
    ∀ p ∈ parsedParagraphs nodes w skip,
      p ≠ [] ∧ trim p = p ∧ containsSub p [nl, nl] = false := by
  intro p hp
  have hp2 := remove_empty_sections_subset _ p hp
  rw [List.mem_filter] at hp2
  obtain ⟨hpmem, hpne⟩ := hp2
  rw [List.mem_map] at hpmem
  obtain ⟨q, hq, rfl⟩ := hpmem
  refine ⟨by simpa [List.isEmpty_iff] using hpne, trim_trim q, ?_⟩
  exact containsSub_false_of_infix (trim_infix_self q)
    (splitNl2_noDouble_aux _ _ le_rfl q hq)

theorem ne_openBrace_of_ws {c : Char} (h : isWS c = true) : c ≠ openBrace := by
  intro hcontra
  subst hcontra
  revert h
  decide

theorem expand_ws_id {s : Str} (h : s.all isWS = true) :
    expand_common_templates s = s := by
  have hnb : ∀ c ∈ s, c ≠ openBrace := fun c hc =>
    ne_openBrace_of_ws (List.all_eq_true.mp h c hc)
  rw [expand_common_templates,
    scanRepl_id_of_head matchSS3 (fun c cs h2 => matchSS3_none_of_head cs h2) s hnb,
    scanRepl_id_of_head matchGod (fun c cs h2 => matchGod_none_of_head cs h2) s hnb,
    scanRepl_id_of_head matchNum (fun c cs h2 => matchNum_none_of_head cs h2) s hnb,
    scanRepl_id_of_head matchCatchAll (fun c cs h2 => matchCatchAll_none_of_head cs h2) s hnb]

theorem remove_image_fragments_ws {s : Str} (h : s.all isWS = true) :
    (remove_image_fragments s).all isWS = true := by
  rw [remove_image_fragments]
  exact collapseNewlines_all _ isWS_nl _ (removeImageFragmentsCore_all _ isWS_nl _ h)

/-- C10.  For every input the complexity guard lets through, the result of
`parse_wikitext` is exactly the blank-line join of its pruned paragraph
list, whose members are all non-empty, trimmed, and free of blank-line
separators; consequently the result never begins or ends with whitespace
(it is its own trim) and never contains a run of three or more consecutive
newlines; and whenever the extracted text is empty or whitespace-only (as
for empty or whitespace-only markup under the external parser, whose text
nodes slice the document), the result is the empty string. -/
theorem parse_output_shape (parseFn : Str → List Node) (w : Str) (skip : Bool)
    (hguard : complexityGuard w = false) :
    parse_wikitext parseFn w skip = joinWith nl2 (parsedParagraphs (parseFn w) w skip) ∧
    (∀ p ∈ parsedParagraphs (parseFn w) w skip,
      p ≠ [] ∧ trim p = p ∧ containsSub p [nl, nl] = false) ∧
    trim (parse_wikitext parseFn w skip) = parse_wikitext parseFn w skip ∧
    hasTripleNl (parse_wikitext parseFn w skip) = false ∧
    ((extract_text_from_nodes (parseFn w) w skip).all isWS = true →
      parse_wikitext parseFn w skip = []) := by
  have heq : parse_wikitext parseFn w skip
      = joinWith nl2 (parsedParagraphs (parseFn w) w skip) := by
    rw [parse_wikitext, if_neg (by simp [hguard]), postParse_eq]
  have hprops := parsedParagraphs_props (parseFn w) w skip
  refine ⟨heq, hprops, ?_, ?_, ?_⟩
  · rw [heq]
    exact joinWith_trim _ (fun p hp => ⟨(hprops p hp).1, (hprops p hp).2.1⟩)
  · rw [hasTripleNl, heq]
    exact joinWith_noTriple _ hprops
  · intro hws
    rw [heq]
    have hex : (remove_image_fragments (expand_common_templates
        (extract_text_from_nodes (parseFn w) w skip))).all isWS = true := by
      rw [expand_ws_id hws]
      exact remove_image_fragments_ws hws
    have hnil : ((splitNl2 (remove_image_fragments (expand_common_templates
        (extract_text_from_nodes (parseFn w) w skip)))).map trim).filter
          (fun p => !p.isEmpty) = [] := by
      rw [List.filter_eq_nil_iff]
      intro p hp
      rw [List.mem_map] at hp
      obtain ⟨q, hq, rfl⟩ := hp
      have hqws : q.all isWS = true :=
        all_of_subset (splitNl2_subset_aux _ _ le_rfl q hq) hex
      rw [all_isWS_trim_nil hqws]
      simp
    rw [parsedParagraphs, hnil]
    rfl

/-- C10 witness: the output-shape theorem applied at a concrete two-letter
document, with the guard hypothesis discharged by the counting lemmas. -/
theorem parse_output_shape_witness :
    trim (parse_wikitext (fun _ => [Node.text (str "Hi")]) (str "Hi") false)
      = parse_wikitext (fun _ => [Node.text (str "Hi")]) (str "Hi") false ∧
    hasTripleNl (parse_wikitext (fun _ => [Node.text (str "Hi")]) (str "Hi") false) = false := by
  have hguard : complexityGuard (str "Hi") = false := by
    have h1 : countMatches tableRowMarker (str "Hi") = 0 := by
      rw [show tableRowMarker = pipeChar :: [Char.ofNat 45] from by decide]
      exact countMatches_zero_of _ (by decide)
    have h2 : countMatches templateOpenMarker (str "Hi") = 0 := by
      rw [show templateOpenMarker = openBrace :: [openBrace] from by decide]
      exact countMatches_zero_of _ (by decide)
    have h3 : countMatches fileMarkerRu (str "Hi") = 0 := by
      rw [show fileMarkerRu = openBracket :: (fileMarkerRu.drop 1) from by decide]
      exact countMatches_zero_of _ (by decide)
    have h4 : countMatches fileMarkerEn (str "Hi") = 0 := by
      rw [show fileMarkerEn = openBracket :: (fileMarkerEn.drop 1) from by decide]
      exact countMatches_zero_of _ (by decide)
    simp [complexityGuard, h1, h2, h3, h4]
  have happ := parse_output_shape (fun _ => [Node.text (str "Hi")]) (str "Hi") false hguard
  exact ⟨happ.2.2.1, happ.2.2.2.1⟩

end Wikitext
